import Mathlib

/-!
Verification of the hedge-matching engine of `hedge_engine.py`.

The two engine stages are shallowly embedded here:

* `calculate_net_positions_corrected` — the FIFO netting engine
  (`hedge_engine.py`, lines 100-168);
* `auto_match_hedges` — the allocation engine (lines 195-318).

Modelling conventions:

* volumes and prices are exact rationals (`ℚ`); the Python floats are
  idealized to exact arithmetic, and the source's `1e-4` tolerance checks
  are kept literally as the rational `1/10000`;
* dates are day numbers (`ℤ`); a missing/unparseable date (`NaT`) is
  `none : Option ℤ`; pandas sorts put `NaT` last, which the comparison
  functions below reproduce;
* a pandas DataFrame is a `List` of records, mutation of a row is
  `List.set`, and `.at[i, col]` reads are `List.getD` with a dummy record;
* `sort_values` is modelled by the stable `List.insertionSort`;
* the presentation-only string `Close_Path_Details` (built by
  `format_close_details` purely for display) is not modelled; relation
  rows carry all the numeric fields of the source.
-/

namespace HedgeMatcher

/-- Tolerance used throughout the source: `0.0001`. -/
def Eps : ℚ := 1 / 10000

/-- Absolute value on `ℚ` (kernel-reducible form of `|x|`). -/
def qabs (x : ℚ) : ℚ := if x < 0 then -x else x

/-- Minimum on `ℚ` (kernel-reducible form of `min`). -/
def qmin (a b : ℚ) : ℚ := if a ≤ b then a else b

/-- One paper-trade row, with the columns the engine reads
(`Recap No`, `Trade Date`, `Std_Commodity`, `Month`, `Volume`, `Price`,
`Mtm Price`, `Total P/L`). -/
structure PaperTrade where
  recapNo : String
  tradeDate : Option ℤ
  stdCommodity : String
  month : String
  volume : ℚ
  price : ℚ
  mtmPrice : ℚ
  totalPL : ℚ
deriving DecidableEq

/-- One element of a trade's `Close_Events` list. -/
structure CloseEvent where
  ref : String
  date : Option ℤ
  vol : ℚ
  price : ℚ
deriving DecidableEq

/-- A paper-trade row after the netting engine has added
`Net_Open_Vol`, `Closed_Vol` and `Close_Events`. -/
structure NettedTrade where
  base : PaperTrade
  netOpenVol : ℚ
  closedVol : ℚ
  closeEvents : List CloseEvent
deriving DecidableEq

def dummyTrade : PaperTrade :=
  { recapNo := "", tradeDate := none, stdCommodity := "", month := "",
    volume := 0, price := 0, mtmPrice := 0, totalPL := 0 }

def dummyNetted : NettedTrade :=
  { base := dummyTrade, netOpenVol := 0, closedVol := 0, closeEvents := [] }

/-- Comparison on optional dates with `none` (NaT) sorting last, as pandas
`sort_values` does with its default `na_position` of last. -/
def oLe (a b : Option ℤ) : Bool :=
  match a, b with
  | _, none => true
  | none, some _ => false
  | some x, some y => decide (x ≤ y)

/-- Strict version of `oLe`; `none` is strictly above every date. -/
def oLt (a b : Option ℤ) : Bool :=
  match a, b with
  | none, _ => false
  | some _, none => true
  | some x, some y => decide (x < y)

/-- The key the netting engine sorts paper trades by:
`df_paper.sort_values(by='Trade Date')`. -/
def tradeLe (a b : PaperTrade) : Prop := oLe a.tradeDate b.tradeDate = true

instance : DecidableRel tradeLe := fun a b => by unfold tradeLe; infer_instance

instance : IsTotal PaperTrade tradeLe := by
  constructor
  intro a b
  unfold tradeLe
  cases a.tradeDate <;> cases b.tradeDate <;> simp [oLe] <;> omega

instance : IsTrans PaperTrade tradeLe := by
  constructor
  intro a b c h1 h2
  unfold tradeLe at h1 h2 ⊢
  revert h1 h2
  cases a.tradeDate <;> cases b.tradeDate <;> cases c.tradeDate <;>
    simp [oLe] <;> omega

/-- Strict trade-date comparison, used to express uniqueness of the
sorted order when all dates are distinct. -/
def tradeLt (a b : PaperTrade) : Prop := oLt a.tradeDate b.tradeDate = true

instance : IsAntisymm PaperTrade tradeLt := by
  constructor
  intro a b h1 h2
  unfold tradeLt at h1 h2
  exfalso
  cases ha : a.tradeDate <;> cases hb : b.tradeDate <;>
    rw [ha, hb] at h1 h2 <;> simp_all [oLt] <;> omega

/-- Group key of the netting engine: `Std_Commodity + "_" + Month`. -/
def groupKey (t : PaperTrade) : String := t.stdCommodity ++ "_" ++ t.month

/-- Append index `i` to the entry of key `k`, creating the entry at the
end on first appearance; models the `groups` dict of the source, whose
iteration order is key-insertion order. -/
def addToGroups (gs : List (String × List Nat)) (k : String) (i : Nat) :
    List (String × List Nat) :=
  match gs with
  | [] => [(k, [i])]
  | (k2, l2) :: rest =>
    if k2 = k then (k2, l2 ++ [i]) :: rest else (k2, l2) :: addToGroups rest k i

/-- Partition of the (sorted) trade list into per-group index lists, in
key first-appearance order — the `groups` dict built on lines 115-120. -/
def groupIndices (l : List PaperTrade) : List (String × List Nat) :=
  (List.range l.length).foldl
    (fun gs i => addToGroups gs (groupKey (l.getD i dummyTrade)) i) []

/-- Update of the two records touched by one FIFO offset: a close event is
recorded on the front lot's source trade `qIdx` (capturing the incoming
trade's ref, date and price), both trades' `Closed_Vol` grow by `offset`,
and their `Net_Open_Vol` become the new remainders (lines 141-154). -/
def applyOffset (recs : List NettedTrade) (idx qIdx : Nat)
    (offset qVol2 curVol2 : ℚ) : List NettedTrade :=
  let inc := recs.getD idx dummyNetted
  let ev : CloseEvent :=
    { ref := inc.base.recapNo, date := inc.base.tradeDate,
      vol := offset, price := inc.base.price }
  let qRec := recs.getD qIdx dummyNetted
  let recs2 := recs.set qIdx
    { qRec with closeEvents := qRec.closeEvents ++ [ev],
                closedVol := qRec.closedVol + offset, netOpenVol := qVol2 }
  let inc2 := recs2.getD idx dummyNetted
  recs2.set idx
    { inc2 with closedVol := inc2.closedVol + offset, netOpenVol := curVol2 }

/-- Inner `while open_queue:` loop of the netting engine (lines 135-162)
for the incoming trade at `idx` with remaining volume `curVol` of sign
`curSign`.  Returns the updated records, the remaining queue, and the
incoming trade's residual volume.  Queue entries are
`(source index, remaining signed volume, sign)`.

When the front lot survives an offset (`|qVol2| ≥ Eps`), the incoming
volume was the smaller side of the `min`, so in exact arithmetic its
remainder is zero and the source's `abs(current_vol) < 0.0001` break
fires; the front-lot-kept branch therefore returns directly. -/
def nettingLoop (idx : Nat) :
    List (Nat × ℚ × ℚ) → List NettedTrade → ℚ → ℚ →
    List NettedTrade × List (Nat × ℚ × ℚ) × ℚ
  | [], recs, curVol, _ => (recs, [], curVol)
  | (qIdx, qVol, qSign) :: rest, recs, curVol, curSign =>
    if qSign ≠ curSign then
      let offset := qmin (qabs curVol) (qabs qVol)
      let curVol2 := curVol - curSign * offset
      let qVol2 := qVol - qSign * offset
      let recs3 := applyOffset recs idx qIdx offset qVol2 curVol2
      if qabs qVol2 < Eps then
        if qabs curVol2 < Eps then (recs3, rest, curVol2)
        else nettingLoop idx rest recs3 curVol2 curSign
      else (recs3, (qIdx, qVol2, qSign) :: rest, curVol2)
    else (recs, (qIdx, qVol, qSign) :: rest, curVol)

/-- Visit of one trade of a group (the `for idx in indices:` body,
lines 125-165): re-initialize the three netting fields, skip a
near-zero volume, otherwise run the FIFO loop and enqueue any residual. -/
def processTrade (st : List NettedTrade × List (Nat × ℚ × ℚ)) (idx : Nat) :
    List NettedTrade × List (Nat × ℚ × ℚ) :=
  let recs := st.1
  let queue := st.2
  let row := recs.getD idx dummyNetted
  let currentVol := row.base.volume
  let recs1 := recs.set idx
    { row with netOpenVol := currentVol, closedVol := 0, closeEvents := [] }
  if qabs currentVol < Eps then (recs1, queue)
  else
    let currentSign : ℚ := if currentVol > 0 then 1 else -1
    let r := nettingLoop idx queue recs1 currentVol currentSign
    if qabs r.2.2 > Eps then (r.1, r.2.1 ++ [(idx, r.2.2, currentSign)])
    else (r.1, r.2.1)

/-- FIFO pass over one group's indices, starting from an empty open queue
(lines 123-165). -/
def processGroup (recs : List NettedTrade) (indices : List Nat) :
    List NettedTrade :=
  (indices.foldl processTrade (recs, [])).1

/-- Netting of a date-sorted trade list: group, then FIFO-offset each
group.  Records are pre-initialized with `Net_Open_Vol = Volume`,
`Closed_Vol = 0` and no close events (the source sets these same values
on first visit of each row). -/
def nettingOfSorted (sorted : List PaperTrade) : List NettedTrade :=
  let recs0 := sorted.map
    (fun t => { base := t, netOpenVol := t.volume, closedVol := 0,
                closeEvents := [] : NettedTrade })
  (groupIndices sorted).foldl (fun recs g => processGroup recs g.2) recs0

/-- The corrected FIFO netting engine (`calculate_net_positions_corrected`,
lines 100-168): sort by trade date, group by commodity and contract
month, then offset within each group in FIFO order. -/
def calculate_net_positions_corrected (l : List PaperTrade) :
    List NettedTrade :=
  nettingOfSorted (List.insertionSort tradeLe l)

/-- Substring membership on character lists, mirroring pandas
`Series.str.contains(pat, regex=False)` and the Python `in` operator. -/
def listContainsSub (pat : List Char) : List Char → Bool
  | [] => pat.isEmpty
  | c :: rest => pat.isPrefixOf (c :: rest) || listContainsSub pat rest

/-- Substring test `pat in hay` on strings. -/
def strContains (hay pat : String) : Bool := listContainsSub pat.toList hay.toList

/-- One physical-cargo row, with the columns the allocation engine reads
(`Cargo_ID`, `Unhedged_Volume`, `Hedge_Proxy`, `Target_Contract_Month`,
`Direction`, `Designation_Date`, `Pricing_Benchmark`). -/
structure Cargo where
  cargoId : String
  unhedgedVolume : ℚ
  hedgeProxy : String
  targetContractMonth : String
  direction : String
  designationDate : Option ℤ
  pricingBenchmark : String
deriving DecidableEq

/-- A cargo row of the sorted working copy `df_phy`, carrying its
original index `_orig_idx` for write-back. -/
structure CargoRow where
  origIdx : Nat
  cargo : Cargo
deriving DecidableEq

def dummyCargo : Cargo :=
  { cargoId := "", unhedgedVolume := 0, hedgeProxy := "",
    targetContractMonth := "", direction := "", designationDate := none,
    pricingBenchmark := "" }

/-- The `bench_prio` function (lines 220-222): benchmarks containing
"BRENT" (after uppercasing) get priority 0, everything else 1. -/
def bench_prio (c : Cargo) : Nat :=
  if strContains c.pricingBenchmark.toUpper "BRENT" then 0 else 1

/-- The key of `df_phy.sort_values(by=['_priority', '_orig_idx'])`
(line 225): benchmark priority first, original row position second. -/
def cargoLe (a b : CargoRow) : Prop :=
  bench_prio a.cargo < bench_prio b.cargo ∨
    (bench_prio a.cargo = bench_prio b.cargo ∧ a.origIdx ≤ b.origIdx)

instance : DecidableRel cargoLe := fun a b => by unfold cargoLe; infer_instance

instance : IsTotal CargoRow cargoLe := by
  constructor; intro a b; unfold cargoLe; omega

instance : IsTrans CargoRow cargoLe := by
  constructor; intro a b c; unfold cargoLe; omega

/-- The physical rows annotated with `_orig_idx` (line 217). -/
def enumCargoRows (physical : List Cargo) : List CargoRow :=
  physical.enum.map (fun p => { origIdx := p.1, cargo := p.2 })

/-- Cargo processing order of `auto_match_hedges` (lines 214-228): when
the `Pricing_Benchmark` column exists, sort by benchmark priority and
then original position; otherwise keep the input order. -/
def cargoProcessingOrder (hasBench : Bool) (physical : List Cargo) :
    List CargoRow :=
  if hasBench then List.insertionSort cargoLe (enumCargoRows physical)
  else enumCargoRows physical

/-- A paper-trade row of the `active_paper` working copy: the netted trade,
its `_original_index`, and the running `Allocated_To_Phy` tally. -/
structure AllocPaper where
  origIndex : Nat
  trade : NettedTrade
  allocatedToPhy : ℚ
deriving DecidableEq

def dummyAlloc : AllocPaper :=
  { origIndex := 0, trade := dummyNetted, allocatedToPhy := 0 }

/-- Candidate filter of lines 242-245: the normalized commodity contains
the cargo's hedge proxy as a substring, and the contract month equals
the cargo's target month. -/
def candPred (proxy targetMonth : String) (p : AllocPaper) : Bool :=
  strContains p.trade.base.stdCommodity proxy &&
    decide (p.trade.base.month = targetMonth)

/-- Candidates of one cargo: `active_paper` filtered by `candPred`. -/
def candidatesFor (active : List AllocPaper) (proxy targetMonth : String) :
    List AllocPaper :=
  active.filter (candPred proxy targetMonth)

/-- Absolute time lag key (`Abs_Lag`, line 251); `none` for a candidate
with no parseable trade date (pandas `NaN`, sorted last). -/
def absLagKey (c : AllocPaper × Option ℤ) : Option ℤ :=
  c.2.map (fun d => if d < 0 then -d else d)

/-- Trade date of a ranked candidate. -/
def candDate (c : AllocPaper × Option ℤ) : Option ℤ :=
  c.1.trade.base.tradeDate

/-- Ranking relation of `sort_values(by=['Abs_Lag', 'Trade Date'])`
(line 253): smaller absolute lag first, ties by earlier trade date,
missing values last. -/
def lagLe (a b : AllocPaper × Option ℤ) : Prop :=
  (oLt (absLagKey a) (absLagKey b) ||
    (decide (absLagKey a = absLagKey b) && oLe (candDate a) (candDate b))) = true

instance : DecidableRel lagLe := fun a b => by unfold lagLe; infer_instance

/-- Ranking relation of the FIFO fallback `sort_values(by='Trade Date')`
(line 257). -/
def candDateLe (a b : AllocPaper × Option ℤ) : Prop :=
  oLe (candDate a) (candDate b) = true

instance : DecidableRel candDateLe := fun a b => by unfold candDateLe; infer_instance

instance : IsTotal (AllocPaper × Option ℤ) lagLe := by
  constructor
  intro a b
  unfold lagLe
  cases absLagKey a <;> cases absLagKey b <;>
    cases candDate a <;> cases candDate b <;>
    simp [oLt, oLe] <;> omega

instance : IsTrans (AllocPaper × Option ℤ) lagLe := by
  constructor
  intro a b c h1 h2
  unfold lagLe at h1 h2 ⊢
  revert h1 h2
  cases absLagKey a <;> cases absLagKey b <;> cases absLagKey c <;>
    cases candDate a <;> cases candDate b <;> cases candDate c <;>
    simp [oLt, oLe] <;> omega

instance : IsTotal (AllocPaper × Option ℤ) candDateLe := by
  constructor
  intro a b
  unfold candDateLe
  cases candDate a <;> cases candDate b <;> simp [oLe] <;> omega

instance : IsTrans (AllocPaper × Option ℤ) candDateLe := by
  constructor
  intro a b c h1 h2
  unfold candDateLe at h1 h2 ⊢
  revert h1 h2
  cases candDate a <;> cases candDate b <;> cases candDate c <;>
    simp [oLe] <;> omega

/-- Candidate ranking of lines 248-257: with a designation date and at
least one parseable candidate trade date, sort by absolute lag then
trade date (closest in time wins); otherwise fall back to FIFO by trade
date.  Each candidate is paired with its `Time_Lag_Days` value. -/
def rankCandidates (desig : Option ℤ) (cands : List AllocPaper) :
    List (AllocPaper × Option ℤ) :=
  match desig with
  | some dd =>
    if cands.any (fun p => p.trade.base.tradeDate.isSome) then
      List.insertionSort lagLe
        (cands.map (fun p => (p, p.trade.base.tradeDate.map (fun d => d - dd))))
    else
      List.insertionSort candDateLe
        (cands.map (fun p => (p, (none : Option ℤ))))
  | none =>
    List.insertionSort candDateLe
      (cands.map (fun p => (p, (none : Option ℤ))))

/-- Round-half-even to an integer, the semantics of Python `round`. -/
def roundHalfEven (q : ℚ) : ℤ :=
  let f := q.floor
  let frac := q - (f : ℚ)
  if frac < 1/2 then f
  else if 1/2 < frac then f + 1
  else if f % 2 = 0 then f else f + 1

/-- Python `round(x, 2)`. -/
def roundTo2 (q : ℚ) : ℚ := (roundHalfEven (q * 100) : ℚ) / 100

/-- One row of the hedge-relations output (lines 291-308).  The
presentation-only `Close_Path_Details` string is not modelled. -/
structure HedgeRelation where
  cargoId : String
  proxy : String
  designationDate : Option ℤ
  openDate : Option ℤ
  timeLag : Option ℤ
  ticketId : String
  month : String
  allocatedVol : ℚ
  tradeVolume : ℚ
  tradeNetOpen : ℚ
  tradeClosedVol : ℚ
  openPrice : ℚ
  mtmPrice : ℚ
  allocUnrealizedMtm : ℚ
  allocTotalPL : ℚ
deriving DecidableEq

/-- Mutable state of one `auto_match_hedges` run: the `active_paper`
working copy, the caller's `physical_df` (updated in place through
`Unhedged_Volume` write-backs), and the accumulated relation rows. -/
structure AllocState where
  activePaper : List AllocPaper
  physical : List Cargo
  relations : List HedgeRelation
deriving DecidableEq

/-- The `for _, ticket in candidates_df.iterrows():` loop (lines 259-313):
walk the ranked candidates; stop once the remaining need drops below one
unit; skip exhausted tickets (`available = Volume - Allocated_To_Phy`,
line 267 — availability is measured against the trade's original volume);
otherwise allocate, append a relation row, and write the cargo's new
unhedged volume back to the original physical row. -/
def allocWalk (row : CargoRow) :
    List (AllocPaper × Option ℤ) → AllocState → ℚ → AllocState
  | [], s, _ => s
  | (tk, lag) :: rest, s, phyVol =>
    if qabs phyVol < 1 then s
    else
      let currAllocated := (s.activePaper.getD tk.origIndex dummyAlloc).allocatedToPhy
      let currTotalVol := tk.trade.base.volume
      let avail := currTotalVol - currAllocated
      if qabs avail < Eps then allocWalk row rest s phyVol
      else
        let allocAmtAbs := if qabs avail ≥ qabs phyVol then qabs phyVol else qabs avail
        let allocAmt := (if 0 < avail then 1 else -1) * allocAmtAbs
        let phyVol2 := phyVol - allocAmtAbs
        let ap := s.activePaper.getD tk.origIndex dummyAlloc
        let active2 := s.activePaper.set tk.origIndex
          { ap with allocatedToPhy := ap.allocatedToPhy + allocAmt }
        let openPrice := tk.trade.base.price
        let mtmPrice := tk.trade.base.mtmPrice
        let unrealizedMtm := (mtmPrice - openPrice) * allocAmt
        let ratio := if 0 < qabs tk.trade.base.volume
          then qabs allocAmt / qabs tk.trade.base.volume else 0
        let allocatedTotalPL := tk.trade.base.totalPL * ratio
        let rel : HedgeRelation :=
          { cargoId := row.cargo.cargoId, proxy := row.cargo.hedgeProxy,
            designationDate := row.cargo.designationDate,
            openDate := tk.trade.base.tradeDate, timeLag := lag,
            ticketId := tk.trade.base.recapNo, month := tk.trade.base.month,
            allocatedVol := allocAmt, tradeVolume := tk.trade.base.volume,
            tradeNetOpen := tk.trade.netOpenVol,
            tradeClosedVol := tk.trade.closedVol,
            openPrice := openPrice, mtmPrice := mtmPrice,
            allocUnrealizedMtm := roundTo2 unrealizedMtm,
            allocTotalPL := roundTo2 allocatedTotalPL }
        let cargoRec := s.physical.getD row.origIdx dummyCargo
        let physical2 := s.physical.set row.origIdx
          { cargoRec with unhedgedVolume := phyVol2 }
        allocWalk row rest
          { activePaper := active2, physical := physical2,
            relations := s.relations ++ [rel] } phyVol2

/-- Processing of one cargo (lines 230-313): skip a near-zero unhedged
volume, filter the paper pool, skip if no candidates, otherwise rank
them and walk the ranked list. -/
def processCargo (s : AllocState) (row : CargoRow) : AllocState :=
  let phyVol := row.cargo.unhedgedVolume
  if qabs phyVol < Eps then s
  else
    let cands := candidatesFor s.activePaper row.cargo.hedgeProxy
      row.cargo.targetContractMonth
    if cands.isEmpty then s
    else allocWalk row (rankCandidates row.cargo.designationDate cands) s phyVol

/-- The allocation engine (`auto_match_hedges`, lines 195-318):
initialize `Allocated_To_Phy` to zero on a working copy of the netted
paper, order the cargoes by benchmark priority (when the benchmark
column exists), and process them in turn.  The state returned carries
the relation rows, the updated physical table, and the annotated paper
table (the source writes `Allocated_To_Phy` back into `paper_df`). -/
def initAllocState (physical : List Cargo) (paper : List NettedTrade) :
    AllocState :=
  { activePaper := paper.enum.map
      (fun p => { origIndex := p.1, trade := p.2, allocatedToPhy := 0 : AllocPaper }),
    physical := physical, relations := [] }

def auto_match_hedges (hasBench : Bool) (physical : List Cargo)
    (paper : List NettedTrade) : AllocState :=
  (cargoProcessingOrder hasBench physical).foldl processCargo
    (initAllocState physical paper)

/-- State of an `auto_match_hedges` run after the first `n` cargoes of the
processing order have been handled; at `n = ` number of cargoes this is the
full run.  Used to state invariants that hold at every step of a run. -/
def allocPrefix (hasBench : Bool) (physical : List Cargo)
    (paper : List NettedTrade) (n : Nat) : AllocState :=
  ((cargoProcessingOrder hasBench physical).take n).foldl processCargo
    (initAllocState physical paper)

/-- Netting bookkeeping invariant of one record: the closed volume is
nonnegative and, together with the residual open volume, accounts exactly
for the original volume. -/
def recInv (r : NettedTrade) : Prop :=
  0 ≤ r.closedVol ∧ r.closedVol + |r.netOpenVol| = |r.base.volume|

/-- `recInv` for every record of the working array. -/
def RecsInv (recs : List NettedTrade) : Prop := ∀ r ∈ recs, recInv r

/-- Consistency of one FIFO-queue entry with the record array: valid
index, volume equal to the record's current `Net_Open_Vol`, a unit sign,
and a nonzero remaining volume of that sign. -/
def QEntryInv (recs : List NettedTrade) (e : Nat × ℚ × ℚ) : Prop :=
  e.1 < recs.length ∧ (recs.getD e.1 dummyNetted).netOpenVol = e.2.1 ∧
    (e.2.2 = 1 ∨ e.2.2 = -1) ∧ 0 < e.2.1 * e.2.2

/-- Queue invariant: all entries consistent, sourced from trades strictly
before `bound` in the processing order, with pairwise distinct sources. -/
def QBelow (recs : List NettedTrade) (bound : Nat)
    (q : List (Nat × ℚ × ℚ)) : Prop :=
  (∀ e ∈ q, e.1 < bound ∧ QEntryInv recs e) ∧
    q.Pairwise (fun a b => a.1 ≠ b.1)

/-- `a` lies (inclusively) between `0` and `v`. -/
def between0 (a v : ℚ) : Prop := (0 ≤ a ∧ a ≤ v) ∨ (v ≤ a ∧ a ≤ 0)

/-- Allocation invariant: every trade's running `Allocated_To_Phy` lies
between zero and the trade's original signed volume. -/
def AllocInv (active : List AllocPaper) : Prop :=
  ∀ p ∈ active, between0 p.allocatedToPhy p.trade.base.volume

/-- Every `active_paper` row carries its own position as
`_original_index`, as the initialization `active_paper['_original_index']
= active_paper.index` guarantees. -/
def Positioned (active : List AllocPaper) : Prop :=
  ∀ j, j < active.length → (active.getD j dummyAlloc).origIndex = j

/-- Modelled from the spec: the cargo processing order claimed in §4.2 —
benchmark priority first, then ascending designation date with missing
dates last, then cargo ID.  `auto_match_hedges` is compared against this
ordering; only the benchmark tier is realized there. -/
def specCargoLe (a b : CargoRow) : Prop :=
  (if bench_prio a.cargo ≠ bench_prio b.cargo then
    decide (bench_prio a.cargo < bench_prio b.cargo)
  else if a.cargo.designationDate ≠ b.cargo.designationDate then
    oLt a.cargo.designationDate b.cargo.designationDate
  else decide (a.cargo.cargoId ≤ b.cargo.cargoId)) = true

instance : DecidableRel specCargoLe := fun a b => by
  unfold specCargoLe; infer_instance

/-- Modelled from the spec: cargoes sorted by the §4.2 three-part key. -/
def specCargoOrder (physical : List Cargo) : List CargoRow :=
  List.insertionSort specCargoLe (enumCargoRows physical)

/-!
Concrete inputs used by scenario theorems, witnesses and counterexamples.
-/

/-- FIFO scenario paper trade: `+100` on day 1 (claim C4). -/
def fifoT1 : PaperTrade :=
  { recapNo := "T1", tradeDate := some 1, stdCommodity := "BRENT",
    month := "JAN 24", volume := 100, price := 10, mtmPrice := 0, totalPL := 0 }

/-- FIFO scenario paper trade: `-60` on day 2 (claim C4). -/
def fifoT2 : PaperTrade :=
  { recapNo := "T2", tradeDate := some 2, stdCommodity := "BRENT",
    month := "JAN 24", volume := -60, price := 11, mtmPrice := 0, totalPL := 0 }

/-- FIFO scenario paper trade: `-50` on day 3 (claim C4). -/
def fifoT3 : PaperTrade :=
  { recapNo := "T3", tradeDate := some 3, stdCommodity := "BRENT",
    month := "JAN 24", volume := -50, price := 12, mtmPrice := 0, totalPL := 0 }

/-- A single open paper trade of 100 lots (priority scenario). -/
def poolT : PaperTrade :=
  { recapNo := "P1", tradeDate := some 5, stdCommodity := "BRENT",
    month := "JAN 24", volume := 100, price := 10, mtmPrice := 12,
    totalPL := 200 }

/-- WTI-benchmark cargo needing 100 lots (priority scenario). -/
def cargoWti : Cargo :=
  { cargoId := "W", unhedgedVolume := 100, hedgeProxy := "BRENT",
    targetContractMonth := "JAN 24", direction := "Buy",
    designationDate := some 4, pricingBenchmark := "WTI" }

/-- BRENT-benchmark cargo needing 100 lots (priority scenario). -/
def cargoBrent : Cargo :=
  { cargoId := "B", unhedgedVolume := 100, hedgeProxy := "BRENT",
    targetContractMonth := "JAN 24", direction := "Buy",
    designationDate := some 6, pricingBenchmark := "BRENT" }

/-- Long leg of a fully-netted pair (allocation-bound counterexample). -/
def netA : PaperTrade :=
  { recapNo := "A", tradeDate := some 1, stdCommodity := "BRENT",
    month := "JAN 24", volume := 100, price := 10, mtmPrice := 0, totalPL := 0 }

/-- Short leg of a fully-netted pair (allocation-bound counterexample). -/
def netB : PaperTrade :=
  { recapNo := "B", tradeDate := some 2, stdCommodity := "BRENT",
    month := "JAN 24", volume := -100, price := 11, mtmPrice := 0, totalPL := 0 }

/-- Cargo needing 50 lots against the fully-netted pair. -/
def cargoFifty : Cargo :=
  { cargoId := "C", unhedgedVolume := 50, hedgeProxy := "BRENT",
    targetContractMonth := "JAN 24", direction := "Buy",
    designationDate := none, pricingBenchmark := "" }

/-- Equal-priority cargo in input row 0 with the later designation date. -/
def cargoLate : Cargo :=
  { cargoId := "A", unhedgedVolume := 100, hedgeProxy := "BRENT",
    targetContractMonth := "JAN 24", direction := "Buy",
    designationDate := some 10, pricingBenchmark := "OTHER" }

/-- Equal-priority cargo in input row 1 with the earlier designation date. -/
def cargoEarly : Cargo :=
  { cargoId := "B", unhedgedVolume := 100, hedgeProxy := "BRENT",
    targetContractMonth := "JAN 24", direction := "Buy",
    designationDate := some 5, pricingBenchmark := "OTHER" }

/-- Cargo whose unhedged volume is negative (sign counterexample). -/
def cargoNeg : Cargo :=
  { cargoId := "N", unhedgedVolume := -100, hedgeProxy := "BRENT",
    targetContractMonth := "JAN 24", direction := "Sell",
    designationDate := none, pricingBenchmark := "" }

/-- Cargo whose hedge proxy matches no paper trade (no-match witness). -/
def cargoOrphan : Cargo :=
  { cargoId := "O", unhedgedVolume := 75, hedgeProxy := "GASOIL",
    targetContractMonth := "JAN 24", direction := "Buy",
    designationDate := none, pricingBenchmark := "" }

/-- Two trades on the same day (netting tie counterexample): `+100`. -/
def tieA : PaperTrade :=
  { recapNo := "A", tradeDate := some 1, stdCommodity := "BRENT",
    month := "JAN 24", volume := 100, price := 0, mtmPrice := 0, totalPL := 0 }

/-- Two trades on the same day (netting tie counterexample): `+50`. -/
def tieB : PaperTrade :=
  { recapNo := "B", tradeDate := some 1, stdCommodity := "BRENT",
    month := "JAN 24", volume := 50, price := 0, mtmPrice := 0, totalPL := 0 }

/-- The later short trade closing against the tied pair. -/
def tieC : PaperTrade :=
  { recapNo := "C", tradeDate := some 2, stdCommodity := "BRENT",
    month := "JAN 24", volume := -100, price := 0, mtmPrice := 0, totalPL := 0 }

/-!
Helper lemmas.
-/

theorem qabs_eq_abs (x : ℚ) : qabs x = |x| := by
  by_cases h : x < 0
  · simp [qabs, h, abs_of_neg h]
  · simp [qabs, h, abs_of_nonneg (le_of_not_lt h)]

theorem qmin_eq_min (a b : ℚ) : qmin a b = min a b := by
  rw [qmin, min_def]

theorem getD_set_ne {α : Type} (l : List α) {i j : Nat} (a d : α)
    (h : i ≠ j) : (l.set i a).getD j d = l.getD j d := by
  simp [List.getD_eq_getElem?_getD, List.getElem?_set_ne h]

theorem getD_set_self {α : Type} (l : List α) {i : Nat} (a d : α)
    (h : i < l.length) : (l.set i a).getD i d = a := by
  simp [List.getD_eq_getElem?_getD, List.getElem?_set_self, h]

theorem set_getD_self {α : Type} (l : List α) (j : Nat) (d : α) :
    l.set j (l.getD j d) = l := by
  induction l generalizing j with
  | nil => rfl
  | cons a t ih =>
    cases j with
    | zero => simp
    | succ n => simpa [List.getD] using ih n

theorem getD_mem {α : Type} (l : List α) {j : Nat} (d : α)
    (h : j < l.length) : l.getD j d ∈ l := by
  rw [List.getD_eq_getElem?_getD, List.getElem?_eq_getElem h]
  exact List.getElem_mem h

/-!
Claim C4 — FIFO netting scenario.
-/

/-- C4.  For three same-group trades dated `d1 < d2 < d3` with signed
volumes `+100`, `-60`, `-50`, the netting engine first closes 60 lots of
the first trade against the second (first conjunct: after the first two
trades, trade 1 has net-open 40 and closed 60, trade 2 has closed 60 and
net-open 0), then closes the remaining 40 against the third (second
conjunct: trade 1 ends with net-open 0 and closed 100, trade 3 with
net-open `-10` and closed 40); trade 1's close-event list records the 60
lot closure by trade 2 followed by the 40 lot closure by trade 3. -/
theorem fifo_netting_scenario (t1 t2 t3 : PaperTrade) (d1 d2 d3 : ℤ)
    (hd1 : t1.tradeDate = some d1) (hd2 : t2.tradeDate = some d2)
    (hd3 : t3.tradeDate = some d3) (h12 : d1 < d2) (h23 : d2 < d3)
    (hv1 : t1.volume = 100) (hv2 : t2.volume = -60) (hv3 : t3.volume = -50)
    (hc2 : t2.stdCommodity = t1.stdCommodity) (hm2 : t2.month = t1.month)
    (hc3 : t3.stdCommodity = t1.stdCommodity) (hm3 : t3.month = t1.month) :
    calculate_net_positions_corrected [t1, t2] =
      [{ base := t1, netOpenVol := 40, closedVol := 60,
         closeEvents := [{ ref := t2.recapNo, date := t2.tradeDate,
                           vol := 60, price := t2.price }] },
       { base := t2, netOpenVol := 0, closedVol := 60, closeEvents := [] }] ∧
    calculate_net_positions_corrected [t1, t2, t3] =
      [{ base := t1, netOpenVol := 0, closedVol := 100,
         closeEvents := [{ ref := t2.recapNo, date := t2.tradeDate,
                           vol := 60, price := t2.price },
                         { ref := t3.recapNo, date := t3.tradeDate,
                           vol := 40, price := t3.price }] },
       { base := t2, netOpenVol := 0, closedVol := 60, closeEvents := [] },
       { base := t3, netOpenVol := -10, closedVol := 40, closeEvents := [] }] := by
  constructor
  · have hsorted : List.Sorted tradeLe [t1, t2] := by
      simp [List.sorted_cons, tradeLe, oLe, hd1, hd2]
      omega
    unfold calculate_net_positions_corrected
    rw [List.Sorted.insertionSort_eq hsorted]
    have hgroups : groupIndices [t1, t2] = [(groupKey t1, [0, 1])] := by
      simp [groupIndices, List.range_succ, addToGroups, List.getD, groupKey,
        hc2, hm2]
    unfold nettingOfSorted
    rw [hgroups]
    simp only [List.foldl_cons, List.foldl_nil, List.map_cons, List.map_nil]
    unfold processGroup
    simp only [List.foldl_cons, List.foldl_nil]
    norm_num [processTrade, nettingLoop, applyOffset, List.getD, qabs, qmin,
      Eps, hv1, hv2]
  · have hsorted : List.Sorted tradeLe [t1, t2, t3] := by
      simp [List.sorted_cons, tradeLe, oLe, hd1, hd2, hd3]
      omega
    unfold calculate_net_positions_corrected
    rw [List.Sorted.insertionSort_eq hsorted]
    have hgroups : groupIndices [t1, t2, t3] = [(groupKey t1, [0, 1, 2])] := by
      simp [groupIndices, List.range_succ, addToGroups, List.getD, groupKey,
        hc2, hm2, hc3, hm3]
    unfold nettingOfSorted
    rw [hgroups]
    simp only [List.foldl_cons, List.foldl_nil, List.map_cons, List.map_nil]
    unfold processGroup
    simp only [List.foldl_cons, List.foldl_nil]
    norm_num [processTrade, nettingLoop, applyOffset, List.getD, qabs, qmin,
      Eps, hv1, hv2, hv3]

/-- C4 witness: the scenario theorem applied to three concrete trades
dated days 1, 2 and 3. -/
theorem fifo_netting_scenario_witness :
    calculate_net_positions_corrected [fifoT1, fifoT2, fifoT3] =
      [{ base := fifoT1, netOpenVol := 0, closedVol := 100,
         closeEvents := [{ ref := "T2", date := some 2, vol := 60, price := 11 },
                         { ref := "T3", date := some 3, vol := 40, price := 12 }] },
       { base := fifoT2, netOpenVol := 0, closedVol := 60, closeEvents := [] },
       { base := fifoT3, netOpenVol := -10, closedVol := 40, closeEvents := [] }] := by
  have h := (fifo_netting_scenario fifoT1 fifoT2 fifoT3 1 2 3 rfl rfl rfl
    (by decide) (by decide) rfl rfl rfl rfl rfl rfl rfl).2
  simpa [fifoT2, fifoT3] using h

/-!
Counterexamples.
-/

/-- C2 counterexample.  The trades `netA` (`+100`) and `netB` (`-100`)
net to zero open volume, yet the allocation engine still allocates 50
lots of `netA` to a cargo needing 50: availability is measured against
the original volume (line 267 of the source), not the net-open volume,
so `|Allocated_To_Phy| ≤ |Net_Open_Vol|` fails. -/
theorem alloc_netopen_bound_ce :
    ((auto_match_hedges true [cargoFifty]
        (calculate_net_positions_corrected [netA, netB])).activePaper.getD 0
          dummyAlloc).allocatedToPhy = 50 ∧
    ((auto_match_hedges true [cargoFifty]
        (calculate_net_positions_corrected [netA, netB])).activePaper.getD 0
          dummyAlloc).trade.netOpenVol = 0 ∧
    ¬ (|((auto_match_hedges true [cargoFifty]
          (calculate_net_positions_corrected [netA, netB])).activePaper.getD 0
            dummyAlloc).allocatedToPhy| ≤
        |((auto_match_hedges true [cargoFifty]
          (calculate_net_positions_corrected [netA, netB])).activePaper.getD 0
            dummyAlloc).trade.netOpenVol|) := by
  have h1 : ((auto_match_hedges true [cargoFifty]
      (calculate_net_positions_corrected [netA, netB])).activePaper.getD 0
        dummyAlloc).allocatedToPhy = 50 := by with_unfolding_all decide
  have h2 : ((auto_match_hedges true [cargoFifty]
      (calculate_net_positions_corrected [netA, netB])).activePaper.getD 0
        dummyAlloc).trade.netOpenVol = 0 := by with_unfolding_all decide
  refine ⟨h1, h2, ?_⟩
  rw [h1, h2]
  norm_num

/-- C3 counterexample.  Two cargoes in the same benchmark tier: the
engine's processing order follows the original row order (`A` before
`B`), not the ascending-designation-date order claimed by the spec (`B`
before `A`, since `B`'s designation day 5 precedes `A`'s day 10); with a
single 100-lot trade both cargoes want, the engine consequently fills
row-0 cargo `A` and leaves `B` unhedged. -/
theorem cargo_order_ce :
    (cargoProcessingOrder true [cargoLate, cargoEarly]).map
      (fun r => r.cargo.cargoId) = ["A", "B"] ∧
    (specCargoOrder [cargoLate, cargoEarly]).map
      (fun r => r.cargo.cargoId) = ["B", "A"] ∧
    bench_prio cargoLate = bench_prio cargoEarly ∧
    cargoLate.designationDate = some 10 ∧
    cargoEarly.designationDate = some 5 ∧
    (auto_match_hedges true [cargoLate, cargoEarly]
      (calculate_net_positions_corrected [poolT])).physical.map
        (fun c => (c.cargoId, c.unhedgedVolume)) = [("A", 0), ("B", 100)] := by
  with_unfolding_all decide

/-- C6 counterexample.  A cargo whose unhedged volume starts at `-100`
ends the run at `-200` against a single 100-lot trade: the engine
subtracts the allocated magnitude (line 276 of the source), so a
negative unhedged volume grows in absolute value instead of shrinking. -/
theorem unhedged_monotone_ce :
    cargoNeg.unhedgedVolume = -100 ∧
    ((auto_match_hedges true [cargoNeg]
        (calculate_net_positions_corrected [netA])).physical.getD 0
          dummyCargo).unhedgedVolume = -200 ∧
    ¬ (|((auto_match_hedges true [cargoNeg]
          (calculate_net_positions_corrected [netA])).physical.getD 0
            dummyCargo).unhedgedVolume| ≤ |cargoNeg.unhedgedVolume|) := by
  have h1 : ((auto_match_hedges true [cargoNeg]
      (calculate_net_positions_corrected [netA])).physical.getD 0
        dummyCargo).unhedgedVolume = -200 := by with_unfolding_all decide
  refine ⟨rfl, h1, ?_⟩
  rw [h1]
  norm_num [cargoNeg]

/-- C8 counterexample.  Trades `A` (`+100`) and `B` (`+50`) share group
and trade date; against the later `-100` trade `C`, the input order of
the tied pair decides which lot is closed first, so two permutations of
the same table give trade `A` net-open 0 in one order and 50 in the
other — the re-sort by trade date does not make the engine
order-insensitive when dates tie within a group. -/
theorem netting_order_ce :
    [tieA, tieB, tieC].Perm [tieB, tieA, tieC] ∧
    ((calculate_net_positions_corrected [tieA, tieB, tieC]).filter
      (fun r => r.base.recapNo == "A")).map (fun r => r.netOpenVol) = [0] ∧
    ((calculate_net_positions_corrected [tieB, tieA, tieC]).filter
      (fun r => r.base.recapNo == "A")).map (fun r => r.netOpenVol) = [50] := by
  refine ⟨?_, ?_, ?_⟩
  · decide
  · with_unfolding_all decide
  · with_unfolding_all decide

end HedgeMatcher

namespace HedgeMatcher

theorem getD_eq_getElem {α : Type} (l : List α) (d : α) {j : Nat}
    (h : j < l.length) : l.getD j d = l[j] := by
  rw [List.getD_eq_getElem?_getD, List.getElem?_eq_getElem h]
  rfl

theorem set_oob {α : Type} (l : List α) {j : Nat} (a : α)
    (h : l.length ≤ j) : l.set j a = l := by
  induction l generalizing j with
  | nil => rfl
  | cons b t ih =>
    cases j with
    | zero => simp at h
    | succ n => simp_all

theorem RecsInv_iff (recs : List NettedTrade) :
    RecsInv recs ↔ ∀ j, j < recs.length → recInv (recs.getD j dummyNetted) := by
  constructor
  · intro h j hj
    exact h _ (getD_mem recs dummyNetted hj)
  · intro h r hr
    obtain ⟨j, hj, rfl⟩ := List.mem_iff_getElem.mp hr
    rw [← getD_eq_getElem recs dummyNetted hj]
    exact h j hj

theorem map_base_set (recs : List NettedTrade) (j : Nat) (r2 : NettedTrade)
    (h : r2.base = (recs.getD j dummyNetted).base) :
    (recs.set j r2).map (fun r => r.base) = recs.map (fun r => r.base) := by
  by_cases hj : j < recs.length
  · rw [List.map_set, h, getD_eq_getElem recs dummyNetted hj]
    have hh : recs[j].base = (recs.map (fun r => r.base)).getD j dummyTrade := by
      rw [getD_eq_getElem _ _ (by simpa using hj)]
      simp
    rw [hh, set_getD_self]
  · rw [set_oob recs r2 (le_of_not_lt hj)]

theorem signed_rem {v s o : ℚ} (hs : s = 1 ∨ s = -1) (hvs : 0 ≤ v * s)
    (ho : 0 ≤ o) (hov : o ≤ |v|) :
    |v - s * o| = |v| - o ∧ 0 ≤ (v - s * o) * s := by
  rcases hs with rfl | rfl
  · rw [mul_one] at hvs
    rw [abs_of_nonneg hvs] at hov ⊢
    rw [one_mul]
    rw [abs_of_nonneg (by linarith)]
    constructor
    · ring
    · rw [mul_one]; linarith
  · have hv : v ≤ 0 := by nlinarith
    rw [abs_of_nonpos hv] at hov ⊢
    have : v - (-1) * o = v + o := by ring
    rw [this]
    rw [abs_of_nonpos (by linarith)]
    constructor
    · ring
    · nlinarith

theorem applyOffset_length (recs : List NettedTrade) (idx qIdx : Nat)
    (o q2 c2 : ℚ) :
    (applyOffset recs idx qIdx o q2 c2).length = recs.length := by
  simp [applyOffset]

theorem applyOffset_getD_qIdx (recs : List NettedTrade) {idx qIdx : Nat}
    (o q2 c2 : ℚ) (hne : qIdx ≠ idx) (hq : qIdx < recs.length) :
    (applyOffset recs idx qIdx o q2 c2).getD qIdx dummyNetted =
      { recs.getD qIdx dummyNetted with
        closeEvents := (recs.getD qIdx dummyNetted).closeEvents ++
          [{ ref := (recs.getD idx dummyNetted).base.recapNo,
             date := (recs.getD idx dummyNetted).base.tradeDate,
             vol := o, price := (recs.getD idx dummyNetted).base.price }],
        closedVol := (recs.getD qIdx dummyNetted).closedVol + o,
        netOpenVol := q2 } := by
  unfold applyOffset
  rw [getD_set_ne _ _ _ (fun h => hne h.symm), getD_set_self _ _ _ hq]

theorem applyOffset_getD_idx (recs : List NettedTrade) {idx qIdx : Nat}
    (o q2 c2 : ℚ) (hne : qIdx ≠ idx) (hi : idx < recs.length) :
    (applyOffset recs idx qIdx o q2 c2).getD idx dummyNetted =
      { recs.getD idx dummyNetted with
        closedVol := (recs.getD idx dummyNetted).closedVol + o,
        netOpenVol := c2 } := by
  unfold applyOffset
  rw [getD_set_self _ _ _ (by simpa using hi), getD_set_ne _ _ _ hne]

theorem applyOffset_getD_other (recs : List NettedTrade) {idx qIdx j : Nat}
    (o q2 c2 : ℚ) (hj1 : j ≠ idx) (hj2 : j ≠ qIdx) :
    (applyOffset recs idx qIdx o q2 c2).getD j dummyNetted =
      recs.getD j dummyNetted := by
  unfold applyOffset
  rw [getD_set_ne _ _ _ (fun h => hj1 h.symm),
    getD_set_ne _ _ _ (fun h => hj2 h.symm)]

theorem applyOffset_map_base (recs : List NettedTrade) (idx qIdx : Nat)
    (o q2 c2 : ℚ) :
    (applyOffset recs idx qIdx o q2 c2).map (fun r => r.base) =
      recs.map (fun r => r.base) := by
  simp only [applyOffset]
  rw [map_base_set]
  rw [map_base_set]
  all_goals rfl

end HedgeMatcher

namespace HedgeMatcher

theorem Eps_pos : (0:ℚ) < Eps := by norm_num [Eps]

theorem nettingLoop_length (idx : Nat) (q : List (Nat × ℚ × ℚ)) :
    ∀ (recs : List NettedTrade) (curVol curSign : ℚ),
    (nettingLoop idx q recs curVol curSign).1.length = recs.length := by
  induction q with
  | nil => intro recs curVol curSign; simp [nettingLoop]
  | cons e rest ih =>
    intro recs curVol curSign
    obtain ⟨qIdx, qVol, qSign⟩ := e
    simp only [nettingLoop]
    split_ifs with hsgn hqs hcs
    · simp [applyOffset_length]
    · rw [ih]
      simp [applyOffset_length]
    · simp [applyOffset_length]
    · simp

theorem nettingLoop_map_base (idx : Nat) (q : List (Nat × ℚ × ℚ)) :
    ∀ (recs : List NettedTrade) (curVol curSign : ℚ),
    (nettingLoop idx q recs curVol curSign).1.map (fun r => r.base) =
      recs.map (fun r => r.base) := by
  induction q with
  | nil => intro recs curVol curSign; simp [nettingLoop]
  | cons e rest ih =>
    intro recs curVol curSign
    obtain ⟨qIdx, qVol, qSign⟩ := e
    simp only [nettingLoop]
    split_ifs with hsgn hqs hcs
    · simp [applyOffset_map_base]
    · rw [ih]
      simp [applyOffset_map_base]
    · simp [applyOffset_map_base]
    · simp

theorem nettingLoop_spec (idx : Nat) (q : List (Nat × ℚ × ℚ)) :
    ∀ (recs : List NettedTrade) (curVol curSign : ℚ),
    RecsInv recs → QBelow recs idx q → idx < recs.length →
    (recs.getD idx dummyNetted).netOpenVol = curVol →
    (curSign = 1 ∨ curSign = -1) → 0 ≤ curVol * curSign →
    RecsInv (nettingLoop idx q recs curVol curSign).1 ∧
    QBelow (nettingLoop idx q recs curVol curSign).1 idx
      (nettingLoop idx q recs curVol curSign).2.1 ∧
    ((nettingLoop idx q recs curVol curSign).1.getD idx
      dummyNetted).netOpenVol = (nettingLoop idx q recs curVol curSign).2.2 ∧
    0 ≤ (nettingLoop idx q recs curVol curSign).2.2 * curSign := by
  induction q with
  | nil =>
    intro recs curVol curSign hR hQ hi hnet hs hvs
    simp only [nettingLoop]
    exact ⟨hR, hQ, hnet, hvs⟩
  | cons e rest ih =>
    intro recs curVol curSign hR hQ hi hnet hs hvs
    obtain ⟨qIdx, qVol, qSign⟩ := e
    have hfront := hQ.1 _ (List.mem_cons_self _ _)
    have hqbound : qIdx < idx := hfront.1
    have hqlen : qIdx < recs.length := hfront.2.1
    have hqnet : (recs.getD qIdx dummyNetted).netOpenVol = qVol := hfront.2.2.1
    have hqsign : qSign = 1 ∨ qSign = -1 := hfront.2.2.2.1
    have hqpos : 0 < qVol * qSign := hfront.2.2.2.2
    have hne : qIdx ≠ idx := Nat.ne_of_lt hqbound
    have hrestQ : ∀ e2 ∈ rest, e2.1 < idx ∧ QEntryInv recs e2 :=
      fun e2 he2 => hQ.1 e2 (List.mem_cons_of_mem _ he2)
    have hrestne : ∀ e2 ∈ rest, e2.1 ≠ qIdx := by
      intro e2 he2
      exact Ne.symm ((List.pairwise_cons.mp hQ.2).1 e2 he2)
    have hrestpw : rest.Pairwise (fun a b => a.1 ≠ b.1) :=
      (List.pairwise_cons.mp hQ.2).2
    simp only [nettingLoop]
    set offset := qmin (qabs curVol) (qabs qVol) with hoffdef
    set curVol2 := curVol - curSign * offset with hc2def
    set qVol2 := qVol - qSign * offset with hq2def
    set recs3 := applyOffset recs idx qIdx offset qVol2 curVol2 with hr3def
    have hoffmin : offset = min |curVol| |qVol| := by
      rw [hoffdef, qmin_eq_min, qabs_eq_abs, qabs_eq_abs]
    have ho : 0 ≤ offset := by
      rw [hoffmin]; exact le_min (abs_nonneg _) (abs_nonneg _)
    have hoc : offset ≤ |curVol| := by rw [hoffmin]; exact min_le_left _ _
    have hoq : offset ≤ |qVol| := by rw [hoffmin]; exact min_le_right _ _
    have hcrem := signed_rem hs hvs ho hoc
    have hqrem := signed_rem hqsign (le_of_lt hqpos) ho hoq
    have hlen3 : recs3.length = recs.length := applyOffset_length _ _ _ _ _ _
    have hi3 : idx < recs3.length := by rw [hlen3]; exact hi
    have hnet3 : (recs3.getD idx dummyNetted).netOpenVol = curVol2 := by
      rw [hr3def, applyOffset_getD_idx recs offset qVol2 curVol2 hne hi]
    have hnetq3 : (recs3.getD qIdx dummyNetted).netOpenVol = qVol2 := by
      rw [hr3def, applyOffset_getD_qIdx recs offset qVol2 curVol2 hne hqlen]
    have hR3 : RecsInv recs3 := by
      rw [RecsInv_iff]
      intro j hj
      rw [hlen3] at hj
      have hRj := (RecsInv_iff recs).mp hR
      by_cases hji : j = idx
      · subst hji
        rw [hr3def, applyOffset_getD_idx recs offset qVol2 curVol2 hne hi]
        have hold := hRj _ hi
        unfold recInv at hold ⊢
        simp only
        rw [hnet] at hold
        constructor
        · linarith [hold.1]
        · rw [hcrem.1]
          linarith [hold.2]
      · by_cases hjq : j = qIdx
        · subst hjq
          rw [hr3def, applyOffset_getD_qIdx recs offset qVol2 curVol2 hne hqlen]
          have hold := hRj _ hqlen
          unfold recInv at hold ⊢
          simp only
          rw [hqnet] at hold
          constructor
          · linarith [hold.1]
          · rw [hqrem.1]
            linarith [hold.2]
        · rw [hr3def, applyOffset_getD_other recs offset qVol2 curVol2 hji hjq]
          exact hRj _ hj
    have hQ3rest : QBelow recs3 idx rest := by
      constructor
      · intro e2 he2
        have h1 := hrestQ e2 he2
        have hne2i : e2.1 ≠ idx := Nat.ne_of_lt h1.1
        have hne2q : e2.1 ≠ qIdx := hrestne e2 he2
        refine ⟨h1.1, ?_, ?_, h1.2.2.2.1, h1.2.2.2.2⟩
        · rw [hlen3]; exact h1.2.1
        · rw [hr3def, applyOffset_getD_other recs offset qVol2 curVol2 hne2i hne2q]
          exact h1.2.2.1
      · exact hrestpw
    split_ifs with hsgn hqs hcs
    · exact ⟨hR3, hQ3rest, hnet3, hcrem.2⟩
    · exact ih recs3 curVol2 curSign hR3 hQ3rest hi3 hnet3 hs hcrem.2
    · refine ⟨hR3, ⟨?_, ?_⟩, hnet3, hcrem.2⟩
      · intro e2 he2
        rcases List.mem_cons.mp he2 with he2 | he2
        · subst he2
          refine ⟨hqbound, ?_, hnetq3, hqsign, ?_⟩
          · rw [hlen3]; exact hqlen
          · have hq2ne : qVol2 ≠ 0 := by
              intro hzero
              rw [hzero] at hqs
              simp [qabs] at hqs
              exact absurd hqs (not_le.mpr Eps_pos)
            have hprodne : qVol2 * qSign ≠ 0 := by
              apply mul_ne_zero hq2ne
              rcases hqsign with rfl | rfl <;> norm_num
            exact (hqrem.2).lt_of_ne (Ne.symm hprodne)
        · exact hQ3rest.1 e2 he2
      · rw [List.pairwise_cons]
        exact ⟨fun e2 he2 => Ne.symm (hrestne e2 he2), hrestpw⟩
    · exact ⟨hR, ⟨hQ.1, hQ.2⟩, hnet, hvs⟩

end HedgeMatcher

namespace HedgeMatcher

theorem QBelow_mono {recs : List NettedTrade} {b b2 : Nat}
    {q : List (Nat × ℚ × ℚ)} (h : QBelow recs b q) (hb : b ≤ b2) :
    QBelow recs b2 q :=
  ⟨fun e he => ⟨lt_of_lt_of_le (h.1 e he).1 hb, (h.1 e he).2⟩, h.2⟩

theorem processTrade_length (st : List NettedTrade × List (Nat × ℚ × ℚ))
    (idx : Nat) : (processTrade st idx).1.length = st.1.length := by
  simp only [processTrade]
  split_ifs <;> simp [nettingLoop_length]

theorem processTrade_map_base (st : List NettedTrade × List (Nat × ℚ × ℚ))
    (idx : Nat) :
    (processTrade st idx).1.map (fun r => r.base) =
      st.1.map (fun r => r.base) := by
  simp only [processTrade]
  split_ifs <;> dsimp only <;>
    first
    | exact map_base_set _ _ _ rfl
    | (rw [nettingLoop_map_base]; exact map_base_set _ _ _ rfl)

theorem processTrade_spec (recs : List NettedTrade)
    (q : List (Nat × ℚ × ℚ)) (idx : Nat) (hR : RecsInv recs)
    (hQ : QBelow recs idx q) (hi : idx < recs.length) :
    RecsInv (processTrade (recs, q) idx).1 ∧
    QBelow (processTrade (recs, q) idx).1 (idx + 1)
      (processTrade (recs, q) idx).2 := by
  simp only [processTrade]
  dsimp only
  set row := recs.getD idx dummyNetted with hrow
  set recs1 := (recs.set idx { row with netOpenVol := row.base.volume, closedVol := 0, closeEvents := [] }) with hrecs1
  have hlen1 : recs1.length = recs.length := by rw [hrecs1]; simp
  have hi1 : idx < recs1.length := by rw [hlen1]; exact hi
  have hnet1 : (recs1.getD idx dummyNetted).netOpenVol = row.base.volume := by
    rw [hrecs1, getD_set_self _ _ _ hi]
  have hR1 : RecsInv recs1 := by
    rw [RecsInv_iff]
    intro j hj
    rw [hlen1] at hj
    by_cases hji : j = idx
    · subst hji
      rw [hrecs1, getD_set_self _ _ _ hi]
      refine ⟨le_refl 0, ?_⟩
      simp
    · rw [hrecs1, getD_set_ne _ _ _ (fun h => hji h.symm)]
      exact (RecsInv_iff recs).mp hR j hj
  have hQ1 : QBelow recs1 idx q := by
    refine ⟨fun e he => ⟨(hQ.1 e he).1, ?_, ?_, (hQ.1 e he).2.2.2.1,
      (hQ.1 e he).2.2.2.2⟩, hQ.2⟩
    · rw [hlen1]; exact (hQ.1 e he).2.1
    · rw [hrecs1, getD_set_ne _ _ _ (fun h => (Nat.ne_of_lt (hQ.1 e he).1) h.symm)]
      exact (hQ.1 e he).2.2.1
  by_cases hsmall : qabs row.base.volume < Eps
  · rw [if_pos hsmall]
    exact ⟨hR1, QBelow_mono hQ1 (Nat.le_succ idx)⟩
  · rw [if_neg hsmall]
    set s := if row.base.volume > 0 then (1:ℚ) else -1 with hsdef
    set r := nettingLoop idx q recs1 row.base.volume s with hrdef
    have hsign : s = 1 ∨ s = -1 := by
      rw [hsdef]
      split_ifs <;> simp
    have hvs : 0 ≤ row.base.volume * s := by
      rw [hsdef]
      split_ifs with hpos
      · nlinarith
      · nlinarith [le_of_not_lt hpos]
    have hspec := nettingLoop_spec idx q recs1 row.base.volume s hR1 hQ1 hi1
      hnet1 hsign hvs
    rw [← hrdef] at hspec
    by_cases hbig : qabs r.2.2 > Eps
    · rw [if_pos hbig]
      refine ⟨hspec.1, ?_, ?_⟩
      · intro e he
        rcases List.mem_append.mp he with he | he
        · exact ⟨Nat.lt_succ_of_lt (hspec.2.1.1 e he).1, (hspec.2.1.1 e he).2⟩
        · rcases List.mem_singleton.mp he with rfl
          refine ⟨Nat.lt_succ_self idx, ?_, hspec.2.2.1, hsign, ?_⟩
          · rw [hrdef, nettingLoop_length, hlen1]
            exact hi
          · have hne0 : r.2.2 ≠ 0 := by
              intro hzero
              rw [hzero] at hbig
              simp [qabs] at hbig
              exact absurd hbig (not_lt.mpr (le_of_lt Eps_pos))
            have hprodne : r.2.2 * s ≠ 0 := by
              apply mul_ne_zero hne0
              rcases hsign with h | h <;> rw [h] <;> norm_num
            exact (hspec.2.2.2).lt_of_ne (Ne.symm hprodne)
      · rw [List.pairwise_append]
        refine ⟨hspec.2.1.2, List.pairwise_singleton _ _, ?_⟩
        intro a ha b hb
        rcases List.mem_singleton.mp hb with rfl
        exact Nat.ne_of_lt (hspec.2.1.1 a ha).1
    · rw [if_neg hbig]
      exact ⟨hspec.1, QBelow_mono hspec.2.1 (Nat.le_succ idx)⟩

end HedgeMatcher

namespace HedgeMatcher

theorem foldl_processTrade_length (indices : List Nat) :
    ∀ (st : List NettedTrade × List (Nat × ℚ × ℚ)),
    (indices.foldl processTrade st).1.length = st.1.length := by
  induction indices with
  | nil => intro st; rfl
  | cons i rest ih =>
    intro st
    rw [List.foldl_cons, ih, processTrade_length]

theorem foldl_processTrade_map_base (indices : List Nat) :
    ∀ (st : List NettedTrade × List (Nat × ℚ × ℚ)),
    (indices.foldl processTrade st).1.map (fun r => r.base) =
      st.1.map (fun r => r.base) := by
  induction indices with
  | nil => intro st; rfl
  | cons i rest ih =>
    intro st
    rw [List.foldl_cons, ih, processTrade_map_base]

theorem foldl_processTrade_inv (indices : List Nat) :
    ∀ (recs : List NettedTrade) (q : List (Nat × ℚ × ℚ)) (b : Nat),
    RecsInv recs → QBelow recs b q →
    (∀ i ∈ indices, b ≤ i ∧ i < recs.length) →
    indices.Pairwise (· < ·) →
    RecsInv (indices.foldl processTrade (recs, q)).1 := by
  induction indices with
  | nil => intro recs q b hR _ _ _; exact hR
  | cons i rest ih =>
    intro recs q b hR hQ hbound hpw
    rw [List.foldl_cons]
    have hib := hbound i (List.mem_cons_self _ _)
    have hQi : QBelow recs i q := QBelow_mono hQ hib.1
    have hstep := processTrade_spec recs q i hR hQi hib.2
    have hlen : (processTrade (recs, q) i).1.length = recs.length :=
      processTrade_length (recs, q) i
    have := ih (processTrade (recs, q) i).1 (processTrade (recs, q) i).2
      (i + 1) hstep.1 hstep.2 ?_ (List.pairwise_cons.mp hpw).2
    · exact this
    · intro j hj
      constructor
      · exact Nat.succ_le_of_lt ((List.pairwise_cons.mp hpw).1 j hj)
      · rw [hlen]
        exact (hbound j (List.mem_cons_of_mem _ hj)).2

theorem addToGroups_bound (gs : List (String × List Nat)) (k : String)
    (i : Nat)
    (h : ∀ g ∈ gs, g.2.Pairwise (· < ·) ∧ ∀ x ∈ g.2, x < i) :
    ∀ g ∈ addToGroups gs k i,
      g.2.Pairwise (· < ·) ∧ ∀ x ∈ g.2, x < i + 1 := by
  induction gs with
  | nil =>
    intro g hg
    simp [addToGroups] at hg
    subst hg
    simp
  | cons g0 rest ih =>
    intro g hg
    obtain ⟨k2, l2⟩ := g0
    simp only [addToGroups] at hg
    split_ifs at hg with hk
    · rcases List.mem_cons.mp hg with rfl | hg
      · have h0 := h (k2, l2) (List.mem_cons_self _ _)
        constructor
        · simp only
          rw [List.pairwise_append]
          refine ⟨h0.1, List.pairwise_singleton _ _, ?_⟩
          intro a ha b hb
          rcases List.mem_singleton.mp hb with rfl
          exact h0.2 a ha
        · intro x hx
          simp only at hx
          rcases List.mem_append.mp hx with hx | hx
          · exact Nat.lt_succ_of_lt (h0.2 x hx)
          · rcases List.mem_singleton.mp hx with rfl
            exact Nat.lt_succ_self x
      · have h0 := h g (List.mem_cons_of_mem _ hg)
        exact ⟨h0.1, fun x hx => Nat.lt_succ_of_lt (h0.2 x hx)⟩
    · rcases List.mem_cons.mp hg with rfl | hg
      · have h0 := h (k2, l2) (List.mem_cons_self _ _)
        exact ⟨h0.1, fun x hx => Nat.lt_succ_of_lt (h0.2 x hx)⟩
      · exact ih (fun g2 hg2 => h g2 (List.mem_cons_of_mem _ hg2)) g hg

theorem groupIndices_facts (l : List PaperTrade) :
    ∀ g ∈ groupIndices l,
      g.2.Pairwise (· < ·) ∧ ∀ x ∈ g.2, x < l.length := by
  unfold groupIndices
  suffices h : ∀ n : Nat, ∀ g ∈ (List.range n).foldl
      (fun gs i => addToGroups gs (groupKey (l.getD i dummyTrade)) i) [],
      g.2.Pairwise (· < ·) ∧ ∀ x ∈ g.2, x < n by
    exact h l.length
  intro n
  induction n with
  | zero => simp
  | succ m ih =>
    rw [List.range_succ, List.foldl_append]
    simp only [List.foldl_cons, List.foldl_nil]
    exact addToGroups_bound _ _ _ ih

theorem foldl_processGroup_inv (gs : List (String × List Nat)) :
    ∀ (recs0 : List NettedTrade) (n : Nat),
    RecsInv recs0 → recs0.length = n →
    (∀ g ∈ gs, g.2.Pairwise (· < ·) ∧ ∀ x ∈ g.2, x < n) →
    RecsInv (gs.foldl (fun recs g => processGroup recs g.2) recs0) := by
  induction gs with
  | nil => intro recs0 n hR _ _; exact hR
  | cons g rest ih =>
    intro recs0 n hR hlen hgs
    rw [List.foldl_cons]
    have hg := hgs g (List.mem_cons_self _ _)
    have hstep : RecsInv (processGroup recs0 g.2) := by
      unfold processGroup
      refine foldl_processTrade_inv g.2 recs0 [] 0 hR
        ⟨fun e he => absurd he (List.not_mem_nil e), List.Pairwise.nil⟩ ?_ hg.1
      intro i hi2
      exact ⟨Nat.zero_le i, by rw [hlen]; exact hg.2 i hi2⟩
    have hlen2 : (processGroup recs0 g.2).length = n := by
      unfold processGroup
      rw [foldl_processTrade_length]
      exact hlen
    exact ih (processGroup recs0 g.2) n hstep hlen2
      (fun g2 hg2 => hgs g2 (List.mem_cons_of_mem _ hg2))

theorem nettingOfSorted_inv (sorted : List PaperTrade) :
    RecsInv (nettingOfSorted sorted) := by
  have hinit : RecsInv (sorted.map (fun t =>
      { base := t, netOpenVol := t.volume, closedVol := 0,
        closeEvents := [] : NettedTrade })) := by
    intro r hr
    obtain ⟨t, _, rfl⟩ := List.mem_map.mp hr
    refine ⟨le_refl 0, ?_⟩
    simp
  simp only [nettingOfSorted]
  exact foldl_processGroup_inv (groupIndices sorted) _ sorted.length hinit
    (by simp) (groupIndices_facts sorted)

end HedgeMatcher

namespace HedgeMatcher

/-- C1.  Netting conservation: for every paper trade in every group,
after `calculate_net_positions_corrected` runs, the absolute closed
volume plus the absolute net-open volume equals the absolute original
volume within the `1e-4` tolerance (in the exact-rational embedding the
difference is exactly zero). -/
theorem netting_conservation (l : List PaperTrade) (t : NettedTrade)
    (ht : t ∈ calculate_net_positions_corrected l) :
    |(|t.closedVol| + |t.netOpenVol| - |t.base.volume|)| ≤ Eps := by
  unfold calculate_net_positions_corrected at ht
  obtain ⟨h0, hsum⟩ := nettingOfSorted_inv (List.insertionSort tradeLe l) t ht
  have hz : |t.closedVol| + |t.netOpenVol| - |t.base.volume| = 0 := by
    rw [abs_of_nonneg h0]
    linarith
  rw [hz]
  simpa using le_of_lt Eps_pos

theorem netting_conservation_witness :
    (fun t : NettedTrade =>
      |(|t.closedVol| + |t.netOpenVol| - |t.base.volume|)| ≤ Eps)
      { base := fifoT1, netOpenVol := 0, closedVol := 100,
        closeEvents := [{ ref := "T2", date := some 2, vol := 60, price := 11 },
          { ref := "T3", date := some 3, vol := 40, price := 12 }] } :=
  netting_conservation [fifoT1, fifoT2, fifoT3] _ (by with_unfolding_all decide)

theorem foldl_processGroup_map_base (gs : List (String × List Nat)) :
    ∀ (recs0 : List NettedTrade),
    (gs.foldl (fun recs g => processGroup recs g.2) recs0).map
      (fun r => r.base) = recs0.map (fun r => r.base) := by
  induction gs with
  | nil => intro recs0; rfl
  | cons g rest ih =>
    intro recs0
    rw [List.foldl_cons, ih]
    unfold processGroup
    rw [foldl_processTrade_map_base]

theorem nettingOfSorted_base (s : List PaperTrade) :
    (nettingOfSorted s).map (fun r => r.base) = s := by
  simp only [nettingOfSorted]
  rw [foldl_processGroup_map_base]
  have : ((fun (r : NettedTrade) => r.base) ∘ fun t =>
      { base := t, netOpenVol := t.volume, closedVol := 0,
        closeEvents := [] : NettedTrade }) = id := by
    funext t
    rfl
  rw [List.map_map, this, List.map_id]

/-- C7.  Idempotence of netting: running
`calculate_net_positions_corrected` a second time on its own output
(the engine recomputes every derived field from the unchanged base
columns) reproduces the first run's output exactly, so no trade's
net-open volume or closed volume changes.  This holds for every input,
in particular when every trade is already fully net or fully closed. -/
theorem netting_idempotent (l : List PaperTrade) :
    calculate_net_positions_corrected
      ((calculate_net_positions_corrected l).map (fun r => r.base)) =
    calculate_net_positions_corrected l := by
  unfold calculate_net_positions_corrected
  rw [nettingOfSorted_base,
    List.Sorted.insertionSort_eq (List.sorted_insertionSort tradeLe l)]

theorem sorted_lt_of_sorted_le {xs : List PaperTrade}
    (hs : xs.Sorted tradeLe)
    (hne : xs.Pairwise (fun a b => a.tradeDate ≠ b.tradeDate)) :
    xs.Sorted tradeLt := by
  refine List.Pairwise.imp ?_ (hs.and hne)
  intro a b hab
  obtain ⟨hle, hneq⟩ := hab
  unfold tradeLe at hle
  unfold tradeLt
  revert hle hneq
  cases a.tradeDate <;> cases b.tradeDate <;> simp [oLe, oLt] <;> omega

/-- C8 (amended).  Input-order determinism of netting: for every table
of paper trades whose trade dates are pairwise distinct and every
permutation of its rows, `calculate_net_positions_corrected` produces
the same output (hence the same net-open volume, closed volume and
close events for each trade), because the engine re-sorts by trade date
ascending before processing.  The distinct-dates hypothesis is needed:
see the tied-dates counterexample. -/
theorem netting_input_order_det (l1 l2 : List PaperTrade)
    (hp : l1.Perm l2)
    (hnd : l1.Pairwise (fun a b => a.tradeDate ≠ b.tradeDate)) :
    calculate_net_positions_corrected l1 =
      calculate_net_positions_corrected l2 := by
  unfold calculate_net_positions_corrected
  congr 1
  have hsymm : ∀ {a b : PaperTrade}, a.tradeDate ≠ b.tradeDate →
      b.tradeDate ≠ a.tradeDate := fun h => Ne.symm h
  have hp1 : (List.insertionSort tradeLe l1).Perm
      (List.insertionSort tradeLe l2) :=
    ((List.perm_insertionSort tradeLe l1).trans hp).trans
      (List.perm_insertionSort tradeLe l2).symm
  have hnd1 : (List.insertionSort tradeLe l1).Pairwise
      (fun a b => a.tradeDate ≠ b.tradeDate) :=
    (List.Perm.pairwise_iff hsymm (List.perm_insertionSort tradeLe l1)).mpr hnd
  have hnd2 : (List.insertionSort tradeLe l2).Pairwise
      (fun a b => a.tradeDate ≠ b.tradeDate) :=
    (List.Perm.pairwise_iff hsymm
      (List.perm_insertionSort tradeLe l2)).mpr
      ((List.Perm.pairwise_iff hsymm hp).mp hnd)
  exact List.eq_of_perm_of_sorted hp1
    (sorted_lt_of_sorted_le (List.sorted_insertionSort tradeLe l1) hnd1)
    (sorted_lt_of_sorted_le (List.sorted_insertionSort tradeLe l2) hnd2)

theorem netting_input_order_det_witness :
    calculate_net_positions_corrected [fifoT1, fifoT2] =
      calculate_net_positions_corrected [fifoT2, fifoT1] :=
  netting_input_order_det [fifoT1, fifoT2] [fifoT2, fifoT1]
    (by decide) (by decide)

end HedgeMatcher

namespace HedgeMatcher

theorem qabs_nonneg (x : ℚ) : 0 ≤ qabs x := by
  rw [qabs_eq_abs]
  exact abs_nonneg x

theorem getD_map {α β : Type} (f : α → β) (l : List α) (j : Nat) (d : α) :
    (l.map f).getD j (f d) = f (l.getD j d) := by
  by_cases h : j < l.length
  · rw [getD_eq_getElem _ _ h, getD_eq_getElem _ _ (by simpa using h)]
    simp
  · rw [List.getD_eq_getElem?_getD, List.getD_eq_getElem?_getD,
      List.getElem?_eq_none (by simpa using le_of_not_lt h),
      List.getElem?_eq_none (le_of_not_lt h)]
    rfl

theorem map_set_same {α β : Type} (f : α → β) (l : List α) (j : Nat)
    (a2 : α) (d : α) (h : f a2 = f (l.getD j d)) :
    (l.set j a2).map f = l.map f := by
  by_cases hj : j < l.length
  · rw [List.map_set, h, getD_eq_getElem _ _ hj]
    have hh : f l[j] = (l.map f).getD j (f d) := by
      rw [getD_eq_getElem _ _ (by simpa using hj)]
      simp
    rw [hh, set_getD_self]
  · rw [set_oob l a2 (le_of_not_lt hj)]

theorem between0_step {a v m : ℚ} (hb : between0 a v) (havail : v - a ≠ 0)
    (hm0 : 0 ≤ m) (hm : m ≤ |v - a|) :
    between0 (a + (if 0 < v - a then 1 else -1) * m) v := by
  rcases hb with ⟨h0a, hav⟩ | ⟨hva, ha0⟩
  · have hpos : 0 < v - a := lt_of_le_of_ne (by linarith) (Ne.symm havail)
    rw [if_pos hpos, one_mul]
    rw [abs_of_nonneg (le_of_lt hpos)] at hm
    exact Or.inl ⟨by linarith, by linarith⟩
  · have hneg : ¬ (0 < v - a) := by
      intro hc
      linarith
    rw [if_neg hneg]
    rw [abs_of_nonpos (by linarith)] at hm
    exact Or.inr ⟨by linarith, by linarith⟩

theorem AllocInv_iff (active : List AllocPaper) :
    AllocInv active ↔ ∀ j, j < active.length →
      between0 (active.getD j dummyAlloc).allocatedToPhy
        (active.getD j dummyAlloc).trade.base.volume := by
  constructor
  · intro h j hj
    exact h _ (getD_mem active dummyAlloc hj)
  · intro h p hp
    obtain ⟨j, hj, rfl⟩ := List.mem_iff_getElem.mp hp
    rw [← getD_eq_getElem active dummyAlloc hj]
    exact h j hj

theorem positioned_align {active : List AllocPaper} (hpos : Positioned active)
    {c : AllocPaper} (hc : c ∈ active) :
    c.origIndex < active.length ∧
      active.getD c.origIndex dummyAlloc = c := by
  obtain ⟨j, hj, rfl⟩ := List.mem_iff_getElem.mp hc
  have hgd : active.getD j dummyAlloc = active[j] :=
    getD_eq_getElem active dummyAlloc hj
  have hidx : active[j].origIndex = j := by
    rw [← hgd]
    exact hpos j hj
  rw [hidx]
  exact ⟨hj, hgd⟩

theorem rankCandidates_mem {desig : Option ℤ} {cands : List AllocPaper}
    {pl : AllocPaper × Option ℤ} (h : pl ∈ rankCandidates desig cands) :
    pl.1 ∈ cands := by
  unfold rankCandidates at h
  rcases desig with _ | dd
  · rw [(List.perm_insertionSort candDateLe _).mem_iff] at h
    obtain ⟨p, hp, rfl⟩ := List.mem_map.mp h
    exact hp
  · split_ifs at h
    · rw [(List.perm_insertionSort lagLe _).mem_iff] at h
      obtain ⟨p, hp, rfl⟩ := List.mem_map.mp h
      exact hp
    · rw [(List.perm_insertionSort candDateLe _).mem_iff] at h
      obtain ⟨p, hp, rfl⟩ := List.mem_map.mp h
      exact hp

theorem candidatesFor_subset {active : List AllocPaper}
    {proxy targetMonth : String} {c : AllocPaper}
    (h : c ∈ candidatesFor active proxy targetMonth) : c ∈ active :=
  List.mem_of_mem_filter h

end HedgeMatcher

namespace HedgeMatcher

theorem allocWalk_phys_len (row : CargoRow)
    (cs : List (AllocPaper × Option ℤ)) :
    ∀ (s : AllocState) (v : ℚ),
    (allocWalk row cs s v).physical.length = s.physical.length := by
  induction cs with
  | nil => intro s v; rfl
  | cons c rest ih =>
    intro s v
    obtain ⟨tk, lag⟩ := c
    simp only [allocWalk]
    split_ifs <;> first | rfl | exact ih _ _ | (rw [ih]; simp)

theorem allocWalk_active_len (row : CargoRow)
    (cs : List (AllocPaper × Option ℤ)) :
    ∀ (s : AllocState) (v : ℚ),
    (allocWalk row cs s v).activePaper.length = s.activePaper.length := by
  induction cs with
  | nil => intro s v; rfl
  | cons c rest ih =>
    intro s v
    obtain ⟨tk, lag⟩ := c
    simp only [allocWalk]
    split_ifs <;> first | rfl | exact ih _ _ | (rw [ih]; simp)

theorem allocWalk_active_map (row : CargoRow)
    (cs : List (AllocPaper × Option ℤ)) :
    ∀ (s : AllocState) (v : ℚ),
    (allocWalk row cs s v).activePaper.map (fun p => (p.origIndex, p.trade)) =
      s.activePaper.map (fun p => (p.origIndex, p.trade)) := by
  induction cs with
  | nil => intro s v; rfl
  | cons c rest ih =>
    intro s v
    obtain ⟨tk, lag⟩ := c
    simp only [allocWalk]
    split_ifs <;>
      first
      | rfl
      | exact ih _ _
      | (rw [ih]; exact map_set_same _ _ _ _ dummyAlloc rfl)

theorem allocWalk_phys_other (row : CargoRow)
    (cs : List (AllocPaper × Option ℤ)) :
    ∀ (s : AllocState) (v : ℚ) (j : Nat), j ≠ row.origIdx →
    (allocWalk row cs s v).physical.getD j dummyCargo =
      s.physical.getD j dummyCargo := by
  induction cs with
  | nil => intro s v j hj; rfl
  | cons c rest ih =>
    intro s v j hj
    obtain ⟨tk, lag⟩ := c
    simp only [allocWalk]
    split_ifs <;>
      first
      | rfl
      | exact ih _ _ _ hj
      | (rw [ih _ _ _ hj]; exact getD_set_ne _ _ _ (fun h => hj h.symm))

end HedgeMatcher

namespace HedgeMatcher

theorem allocWalk_phys_self (row : CargoRow)
    (cs : List (AllocPaper × Option ℤ)) :
    ∀ (s : AllocState) (v : ℚ), 0 ≤ v →
    (allocWalk row cs s v).physical.getD row.origIdx dummyCargo =
        s.physical.getD row.origIdx dummyCargo ∨
      ∃ v2, 0 ≤ v2 ∧ v2 ≤ v ∧
        (allocWalk row cs s v).physical.getD row.origIdx dummyCargo =
          { s.physical.getD row.origIdx dummyCargo with
            unhedgedVolume := v2 } := by
  induction cs with
  | nil => intro s v hv; exact Or.inl rfl
  | cons c rest ih =>
    intro s v hv
    obtain ⟨tk, lag⟩ := c
    simp only [allocWalk]
    by_cases h1 : qabs v < 1
    · rw [if_pos h1]
      exact Or.inl rfl
    · rw [if_neg h1]
      set avail := tk.trade.base.volume -
        (s.activePaper.getD tk.origIndex dummyAlloc).allocatedToPhy with havail
      by_cases h2 : qabs avail < Eps
      · rw [if_pos h2]
        exact ih s v hv
      · rw [if_neg h2]
        set m := (if qabs avail ≥ qabs v then qabs v else qabs avail) with hm
        have hm0 : 0 ≤ m := by
          rw [hm]
          split_ifs <;> exact qabs_nonneg _
        have hmv : m ≤ v := by
          have hqv : qabs v = v := by
            rw [qabs_eq_abs]
            exact abs_of_nonneg hv
          rw [hm]
          split_ifs with hc
          · rw [hqv]
          · rw [← hqv]
            exact le_of_lt (lt_of_not_le hc)
        have hrec := ih
          { activePaper := s.activePaper.set tk.origIndex
              { s.activePaper.getD tk.origIndex dummyAlloc with
                allocatedToPhy :=
                  (s.activePaper.getD tk.origIndex dummyAlloc).allocatedToPhy +
                    (if 0 < avail then 1 else -1) * m },
            physical := s.physical.set row.origIdx
              { s.physical.getD row.origIdx dummyCargo with
                unhedgedVolume := v - m },
            relations := s.relations ++
              [{ cargoId := row.cargo.cargoId, proxy := row.cargo.hedgeProxy,
                 designationDate := row.cargo.designationDate,
                 openDate := tk.trade.base.tradeDate, timeLag := lag,
                 ticketId := tk.trade.base.recapNo, month := tk.trade.base.month,
                 allocatedVol := (if 0 < avail then 1 else -1) * m,
                 tradeVolume := tk.trade.base.volume,
                 tradeNetOpen := tk.trade.netOpenVol,
                 tradeClosedVol := tk.trade.closedVol,
                 openPrice := tk.trade.base.price,
                 mtmPrice := tk.trade.base.mtmPrice,
                 allocUnrealizedMtm := roundTo2
                   ((tk.trade.base.mtmPrice - tk.trade.base.price) *
                     ((if 0 < avail then 1 else -1) * m)),
                 allocTotalPL := roundTo2 (tk.trade.base.totalPL *
                   (if 0 < qabs tk.trade.base.volume then
                     qabs ((if 0 < avail then 1 else -1) * m) /
                       qabs tk.trade.base.volume
                   else 0)) }] }
          (v - m) (by linarith)
        rcases hrec with heq | ⟨v3, h30, h3le, heq⟩
        · rw [heq]
          by_cases hlt : row.origIdx < s.physical.length
          · right
            exact ⟨v - m, by linarith, by linarith,
              getD_set_self _ _ _ hlt⟩
          · left
            rw [set_oob _ _ (le_of_not_lt hlt)]
        · rw [heq]
          by_cases hlt : row.origIdx < s.physical.length
          · right
            refine ⟨v3, h30, by linarith, ?_⟩
            rw [getD_set_self _ _ _ hlt]
          · right
            refine ⟨v3, h30, by linarith, ?_⟩
            rw [set_oob _ _ (le_of_not_lt hlt)]

end HedgeMatcher

namespace HedgeMatcher

theorem allocWalk_alloc_inv (row : CargoRow)
    (cs : List (AllocPaper × Option ℤ)) :
    ∀ (s : AllocState) (v : ℚ),
    AllocInv s.activePaper →
    (∀ c ∈ cs, (s.activePaper.getD c.1.origIndex dummyAlloc).trade = c.1.trade) →
    AllocInv (allocWalk row cs s v).activePaper := by
  induction cs with
  | nil => intro s v hI _; exact hI
  | cons c rest ih =>
    intro s v hI hA
    obtain ⟨tk, lag⟩ := c
    simp only [allocWalk]
    by_cases h1 : qabs v < 1
    · rw [if_pos h1]
      exact hI
    · rw [if_neg h1]
      set avail := tk.trade.base.volume -
        (s.activePaper.getD tk.origIndex dummyAlloc).allocatedToPhy with havail
      by_cases h2 : qabs avail < Eps
      · rw [if_pos h2]
        exact ih s v hI (fun c2 hc2 => hA c2 (List.mem_cons_of_mem _ hc2))
      · rw [if_neg h2]
        set m := (if qabs avail ≥ qabs v then qabs v else qabs avail) with hm
        have havailne : avail ≠ 0 := by
          intro hzero
          rw [hzero] at h2
          simp [qabs] at h2
          exact absurd h2 (not_le.mpr Eps_pos)
        have hm0 : 0 ≤ m := by
          rw [hm]
          split_ifs <;> exact qabs_nonneg _
        have hmav : m ≤ |avail| := by
          rw [hm, ← qabs_eq_abs]
          split_ifs with hc
          · exact hc
          · exact le_refl _
        have htr : (s.activePaper.getD tk.origIndex dummyAlloc).trade = tk.trade :=
          hA (tk, lag) (List.mem_cons_self _ _)
        apply ih
        · dsimp only
          rw [AllocInv_iff]
          intro j hj
          simp only [List.length_set] at hj
          by_cases hji : j = tk.origIndex
          · subst hji
            rw [getD_set_self _ _ _ hj]
            dsimp only
            have hb := (AllocInv_iff s.activePaper).mp hI tk.origIndex hj
            have haveq : avail =
                (s.activePaper.getD tk.origIndex dummyAlloc).trade.base.volume -
                  (s.activePaper.getD tk.origIndex dummyAlloc).allocatedToPhy := by
              rw [havail, htr]
            rw [haveq] at havailne hmav ⊢
            exact between0_step hb havailne hm0 hmav
          · rw [getD_set_ne _ _ _ (fun h => hji h.symm)]
            exact (AllocInv_iff s.activePaper).mp hI j hj
        · dsimp only
          intro c2 hc2
          have hold := hA c2 (List.mem_cons_of_mem _ hc2)
          by_cases hji : c2.1.origIndex = tk.origIndex
          · rw [hji]
            by_cases hlt : tk.origIndex < s.activePaper.length
            · rw [getD_set_self _ _ _ hlt]
              rw [hji] at hold
              exact hold
            · rw [set_oob _ _ (le_of_not_lt hlt)]
              rw [hji] at hold
              exact hold
          · rw [getD_set_ne _ _ _ (fun h => hji h.symm)]
            exact hold

end HedgeMatcher

namespace HedgeMatcher

theorem between0_zero (v : ℚ) : between0 0 v := by
  rcases le_total 0 v with h | h
  · exact Or.inl ⟨le_refl 0, h⟩
  · exact Or.inr ⟨h, le_refl 0⟩

theorem between0_abs_le {a v : ℚ} (h : between0 a v) : |a| ≤ |v| := by
  rcases h with ⟨h1, h2⟩ | ⟨h1, h2⟩
  · rw [abs_of_nonneg h1, abs_of_nonneg (le_trans h1 h2)]
    exact h2
  · rw [abs_of_nonpos h2, abs_of_nonpos (le_trans h1 h2)]
    linarith

theorem between0_sign {a v : ℚ} (h : between0 a v) :
    a = 0 ∨ (0 < a ↔ 0 < v) := by
  rcases h with ⟨h1, h2⟩ | ⟨h1, h2⟩
  · rcases eq_or_lt_of_le h1 with heq | hlt
    · exact Or.inl heq.symm
    · exact Or.inr ⟨fun _ => lt_of_lt_of_le hlt h2, fun _ => hlt⟩
  · rcases eq_or_lt_of_le h2 with heq | hlt
    · exact Or.inl heq
    · refine Or.inr ⟨fun hc => absurd hc (not_lt.mpr h2), fun hc =>
        absurd hc (not_lt.mpr (le_trans h1 h2))⟩

theorem origIndex_eq_of_map {a1 a2 : List AllocPaper}
    (h : a1.map (fun p => (p.origIndex, p.trade)) =
      a2.map (fun p => (p.origIndex, p.trade))) (j : Nat) :
    (a1.getD j dummyAlloc).origIndex = (a2.getD j dummyAlloc).origIndex ∧
      (a1.getD j dummyAlloc).trade = (a2.getD j dummyAlloc).trade := by
  have h1 := getD_map (fun p => (p.origIndex, p.trade)) a1 j dummyAlloc
  have h2 := getD_map (fun p => (p.origIndex, p.trade)) a2 j dummyAlloc
  rw [h] at h1
  have hcomb := h1.symm.trans h2
  exact ⟨congrArg Prod.fst hcomb, congrArg Prod.snd hcomb⟩

theorem processCargo_phys_other (s : AllocState) (row : CargoRow) (j : Nat)
    (hj : j ≠ row.origIdx) :
    (processCargo s row).physical.getD j dummyCargo =
      s.physical.getD j dummyCargo := by
  simp only [processCargo]
  split_ifs
  · rfl
  · rfl
  · exact allocWalk_phys_other row _ s _ j hj

theorem processCargo_phys_len (s : AllocState) (row : CargoRow) :
    (processCargo s row).physical.length = s.physical.length := by
  simp only [processCargo]
  split_ifs
  · rfl
  · rfl
  · exact allocWalk_phys_len row _ s _

theorem processCargo_active_len (s : AllocState) (row : CargoRow) :
    (processCargo s row).activePaper.length = s.activePaper.length := by
  simp only [processCargo]
  split_ifs
  · rfl
  · rfl
  · exact allocWalk_active_len row _ s _

theorem processCargo_active_map (s : AllocState) (row : CargoRow) :
    (processCargo s row).activePaper.map (fun p => (p.origIndex, p.trade)) =
      s.activePaper.map (fun p => (p.origIndex, p.trade)) := by
  simp only [processCargo]
  split_ifs
  · rfl
  · rfl
  · exact allocWalk_active_map row _ s _

theorem processCargo_phys_self (s : AllocState) (row : CargoRow)
    (hv : 0 ≤ row.cargo.unhedgedVolume) :
    (processCargo s row).physical.getD row.origIdx dummyCargo =
        s.physical.getD row.origIdx dummyCargo ∨
      ∃ v2, 0 ≤ v2 ∧ v2 ≤ row.cargo.unhedgedVolume ∧
        (processCargo s row).physical.getD row.origIdx dummyCargo =
          { s.physical.getD row.origIdx dummyCargo with
            unhedgedVolume := v2 } := by
  simp only [processCargo]
  split_ifs
  · exact Or.inl rfl
  · exact Or.inl rfl
  · exact allocWalk_phys_self row _ s _ hv

theorem processCargo_alloc_inv (s : AllocState) (row : CargoRow)
    (hI : AllocInv s.activePaper) (hP : Positioned s.activePaper) :
    AllocInv (processCargo s row).activePaper := by
  simp only [processCargo]
  split_ifs
  · exact hI
  · exact hI
  · apply allocWalk_alloc_inv row _ s _ hI
    intro c hc
    have hmem : c.1 ∈ s.activePaper :=
      candidatesFor_subset (rankCandidates_mem hc)
    rw [(positioned_align hP hmem).2]

theorem processCargo_positioned (s : AllocState) (row : CargoRow)
    (hP : Positioned s.activePaper) :
    Positioned (processCargo s row).activePaper := by
  intro j hj
  rw [processCargo_active_len] at hj
  rw [(origIndex_eq_of_map (processCargo_active_map s row) j).1]
  exact hP j hj

theorem foldl_processCargo_inv (rows : List CargoRow) :
    ∀ (s : AllocState), AllocInv s.activePaper → Positioned s.activePaper →
    AllocInv ((rows.foldl processCargo s).activePaper) ∧
      Positioned ((rows.foldl processCargo s).activePaper) := by
  induction rows with
  | nil => intro s hI hP; exact ⟨hI, hP⟩
  | cons r rest ih =>
    intro s hI hP
    rw [List.foldl_cons]
    exact ih (processCargo s r) (processCargo_alloc_inv s r hI hP)
      (processCargo_positioned s r hP)

theorem initAllocState_inv (phys : List Cargo) (paper : List NettedTrade) :
    AllocInv (initAllocState phys paper).activePaper ∧
      Positioned (initAllocState phys paper).activePaper := by
  constructor
  · intro p hp
    simp only [initAllocState] at hp
    obtain ⟨x, _, rfl⟩ := List.mem_map.mp hp
    exact between0_zero _
  · intro j hj
    simp only [initAllocState] at hj ⊢
    simp only [List.length_map, List.enum_length] at hj
    rw [getD_eq_getElem _ _ (by simpa [List.enum_length] using hj)]
    simp [List.getElem_enum]

theorem auto_match_full_run (hasBench : Bool) (phys : List Cargo)
    (paper : List NettedTrade) :
    auto_match_hedges hasBench phys paper =
      allocPrefix hasBench phys paper
        (cargoProcessingOrder hasBench phys).length := by
  unfold auto_match_hedges allocPrefix
  rw [List.take_length]

end HedgeMatcher

namespace HedgeMatcher

/-- C2 (amended).  Allocation boundedness: for every paper trade, at
every point during (any prefix of cargoes processed) and after an
allocation run, the absolute cumulative `Allocated_To_Phy` is at most
the absolute original volume of the trade — not the net-open volume: the
engine computes availability as `Volume - Allocated_To_Phy` (line 267),
so the net-open bound claimed by the spec fails (see the
counterexample) and the original volume is the real bound. -/
theorem alloc_bounded_by_volume :
    (∀ (hasBench : Bool) (phys : List Cargo) (paper : List NettedTrade)
      (n : Nat), ∀ p ∈ (allocPrefix hasBench phys paper n).activePaper,
        |p.allocatedToPhy| ≤ |p.trade.base.volume|) ∧
    (∀ (hasBench : Bool) (phys : List Cargo) (paper : List NettedTrade),
      ∀ p ∈ (auto_match_hedges hasBench phys paper).activePaper,
        |p.allocatedToPhy| ≤ |p.trade.base.volume|) := by
  have hpre : ∀ (hasBench : Bool) (phys : List Cargo)
      (paper : List NettedTrade) (n : Nat),
      ∀ p ∈ (allocPrefix hasBench phys paper n).activePaper,
        |p.allocatedToPhy| ≤ |p.trade.base.volume| := by
    intro hasBench phys paper n p hp
    unfold allocPrefix at hp
    have hinit := initAllocState_inv phys paper
    have hinv := (foldl_processCargo_inv
      ((cargoProcessingOrder hasBench phys).take n)
      (initAllocState phys paper) hinit.1 hinit.2).1
    exact between0_abs_le (hinv p hp)
  refine ⟨hpre, ?_⟩
  intro hasBench phys paper p hp
  rw [auto_match_full_run] at hp
  exact hpre hasBench phys paper _ p hp

/-- C2 amended witness: the fully netted trade `netA` carries
`Allocated_To_Phy = 50` after the run, within its original volume 100. -/
theorem alloc_bounded_by_volume_witness :
    (fun p : AllocPaper => |p.allocatedToPhy| ≤ |p.trade.base.volume|)
      { origIndex := 0,
        trade := { base := netA, netOpenVol := 0, closedVol := 100,
                   closeEvents := [{ ref := "B", date := some 2, vol := 100,
                                     price := 11 }] },
        allocatedToPhy := 50 } :=
  alloc_bounded_by_volume.1 true [cargoFifty]
    (calculate_net_positions_corrected [netA, netB]) 1 _
    (by with_unfolding_all decide)

/-- C10.  Allocation is bounded by the original volume, not the net-open
volume: the allocation step preserves the invariant that each paper
trade's cumulative `Allocated_To_Phy` lies between zero and the trade's
signed original volume (first conjunct: every candidate-walk step from
an invariant state stays invariant), so after every allocation step and
every prefix of a run each trade's tally is zero or has the sign of its
original volume and never exceeds it in magnitude (second conjunct);
availability is `Volume - Allocated_To_Phy` (line 267), so a trade
netted to zero can still be allocated up to its full original volume. -/
theorem allocation_bounded_by_original :
    (∀ (row : CargoRow) (cs : List (AllocPaper × Option ℤ))
      (s : AllocState) (v : ℚ), AllocInv s.activePaper →
      (∀ c ∈ cs,
        (s.activePaper.getD c.1.origIndex dummyAlloc).trade = c.1.trade) →
      AllocInv (allocWalk row cs s v).activePaper) ∧
    (∀ (hasBench : Bool) (phys : List Cargo) (paper : List NettedTrade)
      (n : Nat), ∀ p ∈ (allocPrefix hasBench phys paper n).activePaper,
        (p.allocatedToPhy = 0 ∨
          (0 < p.allocatedToPhy ↔ 0 < p.trade.base.volume)) ∧
        |p.allocatedToPhy| ≤ |p.trade.base.volume|) := by
  constructor
  · exact fun row cs s v => allocWalk_alloc_inv row cs s v
  · intro hasBench phys paper n p hp
    unfold allocPrefix at hp
    have hinit := initAllocState_inv phys paper
    have hinv := (foldl_processCargo_inv
      ((cargoProcessingOrder hasBench phys).take n)
      (initAllocState phys paper) hinit.1 hinit.2).1
    exact ⟨between0_sign (hinv p hp), between0_abs_le (hinv p hp)⟩

/-- C10 witness: the invariant instantiated on the fully netted trade
`netA` after one cargo has been processed. -/
theorem allocation_bounded_by_original_witness :
    (fun p : AllocPaper =>
      (p.allocatedToPhy = 0 ∨
        (0 < p.allocatedToPhy ↔ 0 < p.trade.base.volume)) ∧
      |p.allocatedToPhy| ≤ |p.trade.base.volume|)
      { origIndex := 0,
        trade := { base := netA, netOpenVol := 0, closedVol := 100,
                   closeEvents := [{ ref := "B", date := some 2, vol := 100,
                                     price := 11 }] },
        allocatedToPhy := 50 } :=
  allocation_bounded_by_original.2 true [cargoFifty]
    (calculate_net_positions_corrected [netA, netB]) 1 _
    (by with_unfolding_all decide)

end HedgeMatcher

namespace HedgeMatcher

theorem enumCargoRows_ok (phys : List Cargo) :
    ∀ r ∈ enumCargoRows phys, r.origIdx < phys.length ∧
      r.cargo = phys.getD r.origIdx dummyCargo := by
  intro r hr
  obtain ⟨p, hp, rfl⟩ := List.mem_map.mp hr
  obtain ⟨j, hj, rfl⟩ := List.mem_iff_getElem.mp hp
  rw [List.enum_length] at hj
  rw [List.getElem_enum]
  refine ⟨hj, ?_⟩
  rw [getD_eq_getElem _ _ hj]

theorem cargoOrder_ok (hasBench : Bool) (phys : List Cargo) :
    ∀ r ∈ cargoProcessingOrder hasBench phys, r.origIdx < phys.length ∧
      r.cargo = phys.getD r.origIdx dummyCargo := by
  intro r hr
  unfold cargoProcessingOrder at hr
  split_ifs at hr
  · exact enumCargoRows_ok phys r
      ((List.perm_insertionSort cargoLe _).mem_iff.mp hr)
  · exact enumCargoRows_ok phys r hr

theorem enumCargoRows_pairwise (phys : List Cargo) :
    (enumCargoRows phys).Pairwise (fun a b => a.origIdx < b.origIdx) := by
  have hmap : (enumCargoRows phys).map (fun r => r.origIdx) =
      List.range phys.length := by
    unfold enumCargoRows
    rw [List.map_map]
    have : ((fun (r : CargoRow) => r.origIdx) ∘ fun p => (⟨p.1, p.2⟩ : CargoRow)) =
        Prod.fst := by
      funext p
      rfl
    rw [this, List.enum_map_fst]
  have hpw : ((enumCargoRows phys).map (fun r => r.origIdx)).Pairwise (· < ·) := by
    rw [hmap]
    exact List.pairwise_lt_range _
  exact List.pairwise_map.mp hpw

theorem cargoOrder_pairwise_ne (hasBench : Bool) (phys : List Cargo) :
    (cargoProcessingOrder hasBench phys).Pairwise
      (fun a b => a.origIdx ≠ b.origIdx) := by
  have hsym : ∀ {a b : CargoRow}, a.origIdx ≠ b.origIdx →
      b.origIdx ≠ a.origIdx := fun h => Ne.symm h
  have hen : (enumCargoRows phys).Pairwise
      (fun a b => a.origIdx ≠ b.origIdx) :=
    (enumCargoRows_pairwise phys).imp (fun h => Nat.ne_of_lt h)
  unfold cargoProcessingOrder
  split_ifs
  · exact (List.Perm.pairwise_iff hsym
      (List.perm_insertionSort cargoLe _)).mpr hen
  · exact hen

theorem allocPrefix_zero (hasBench : Bool) (phys : List Cargo)
    (paper : List NettedTrade) :
    allocPrefix hasBench phys paper 0 = initAllocState phys paper := rfl

theorem allocPrefix_succ_lt (hasBench : Bool) (phys : List Cargo)
    (paper : List NettedTrade) {n : Nat}
    (hn : n < (cargoProcessingOrder hasBench phys).length) :
    allocPrefix hasBench phys paper (n + 1) =
      processCargo (allocPrefix hasBench phys paper n)
        ((cargoProcessingOrder hasBench phys)[n]) := by
  unfold allocPrefix
  rw [List.take_succ, List.getElem?_eq_getElem hn]
  rw [List.foldl_append]
  rfl

end HedgeMatcher

namespace HedgeMatcher

theorem allocPrefix_succ_ge (hasBench : Bool) (phys : List Cargo)
    (paper : List NettedTrade) {n : Nat}
    (hn : (cargoProcessingOrder hasBench phys).length ≤ n) :
    allocPrefix hasBench phys paper (n + 1) =
      allocPrefix hasBench phys paper n := by
  unfold allocPrefix
  rw [List.take_of_length_le hn,
    List.take_of_length_le (le_trans hn (Nat.le_succ n))]

theorem allocPrefix_phys_state (hasBench : Bool) (phys : List Cargo)
    (paper : List NettedTrade)
    (hpos : ∀ c ∈ phys, 0 ≤ c.unhedgedVolume) :
    ∀ n : Nat,
    (∀ j : Nat,
      0 ≤ ((allocPrefix hasBench phys paper n).physical.getD j
        dummyCargo).unhedgedVolume ∧
      ((allocPrefix hasBench phys paper n).physical.getD j
        dummyCargo).unhedgedVolume ≤
        (phys.getD j dummyCargo).unhedgedVolume) ∧
    (∀ r ∈ (cargoProcessingOrder hasBench phys).drop n,
      (allocPrefix hasBench phys paper n).physical.getD r.origIdx
        dummyCargo = phys.getD r.origIdx dummyCargo) := by
  have hpos2 : ∀ j : Nat, 0 ≤ (phys.getD j dummyCargo).unhedgedVolume := by
    intro j
    by_cases hj : j < phys.length
    · exact hpos _ (getD_mem phys dummyCargo hj)
    · rw [List.getD_eq_getElem?_getD,
        List.getElem?_eq_none (le_of_not_lt hj)]
      exact le_refl 0
  intro n
  induction n with
  | zero =>
    rw [allocPrefix_zero]
    exact ⟨fun j => ⟨hpos2 j, le_refl _⟩, fun r _ => rfl⟩
  | succ m ih =>
    rcases lt_or_ge m (cargoProcessingOrder hasBench phys).length with hm | hm
    · rw [allocPrefix_succ_lt hasBench phys paper hm]
      set rN := (cargoProcessingOrder hasBench phys)[m] with hrN
      have hrNmem : rN ∈ cargoProcessingOrder hasBench phys :=
        List.getElem_mem hm
      have hok := cargoOrder_ok hasBench phys rN hrNmem
      have hdropeq : (cargoProcessingOrder hasBench phys).drop m =
          rN :: (cargoProcessingOrder hasBench phys).drop (m + 1) :=
        List.drop_eq_getElem_cons hm
      have huntouched : (allocPrefix hasBench phys paper m).physical.getD
          rN.origIdx dummyCargo = phys.getD rN.origIdx dummyCargo := by
        apply ih.2 rN
        rw [hdropeq]
        exact List.mem_cons_self _ _
      have hsnap : 0 ≤ rN.cargo.unhedgedVolume := by
        rw [hok.2]
        exact hpos2 _
      constructor
      · intro j
        by_cases hji : j = rN.origIdx
        · subst hji
          rcases processCargo_phys_self (allocPrefix hasBench phys paper m)
            rN hsnap with heq | ⟨v2, h20, h2le, heq⟩
          · rw [heq]
            exact ih.1 rN.origIdx
          · rw [heq, huntouched]
            refine ⟨h20, ?_⟩
            rw [← hok.2]
            simpa using h2le
        · rw [processCargo_phys_other _ _ _ hji]
          exact ih.1 j
      · intro r hr
        have hpw := cargoOrder_pairwise_ne hasBench phys
        have hpwdrop := List.Pairwise.sublist
          (List.drop_sublist m (cargoProcessingOrder hasBench phys)) hpw
        rw [hdropeq] at hpwdrop
        have hne : rN.origIdx ≠ r.origIdx :=
          (List.pairwise_cons.mp hpwdrop).1 r hr
        rw [processCargo_phys_other _ _ _ (Ne.symm hne)]
        apply ih.2 r
        rw [hdropeq]
        exact List.mem_cons_of_mem _ hr
    · rw [allocPrefix_succ_ge hasBench phys paper hm]
      refine ⟨ih.1, ?_⟩
      intro r hr
      rw [List.drop_eq_nil_of_le (le_trans hm (Nat.le_succ m))] at hr
      exact absurd hr (List.not_mem_nil r)

/-- C6 (amended).  Unhedged-volume invariant for cargoes loaded with
nonnegative volumes: through a single run of `auto_match_hedges`, each
cargo's unhedged volume never becomes negative (so its sign never
changes) and is monotonically non-increasing from each processed cargo
to the next — only explicit allocation decreases it toward zero.  The
nonnegativity restriction is forced by the engine's
`phy_vol -= alloc_amt_abs` update (line 276), which grows the magnitude
of a negative unhedged volume: see the counterexample. -/
theorem unhedged_monotone_nonneg (hasBench : Bool) (phys : List Cargo)
    (paper : List NettedTrade)
    (hpos : ∀ c ∈ phys, 0 ≤ c.unhedgedVolume) (n j : Nat) :
    0 ≤ ((allocPrefix hasBench phys paper (n + 1)).physical.getD j
      dummyCargo).unhedgedVolume ∧
    ((allocPrefix hasBench phys paper (n + 1)).physical.getD j
      dummyCargo).unhedgedVolume ≤
      ((allocPrefix hasBench phys paper n).physical.getD j
        dummyCargo).unhedgedVolume := by
  have hmaster := allocPrefix_phys_state hasBench phys paper hpos
  refine ⟨(hmaster (n + 1)).1 j |>.1, ?_⟩
  rcases lt_or_ge n (cargoProcessingOrder hasBench phys).length with hn | hn
  · rw [allocPrefix_succ_lt hasBench phys paper hn]
    set rN := (cargoProcessingOrder hasBench phys)[n] with hrN
    have hrNmem : rN ∈ cargoProcessingOrder hasBench phys :=
      List.getElem_mem hn
    have hok := cargoOrder_ok hasBench phys rN hrNmem
    have hdropeq : (cargoProcessingOrder hasBench phys).drop n =
        rN :: (cargoProcessingOrder hasBench phys).drop (n + 1) :=
      List.drop_eq_getElem_cons hn
    have huntouched : (allocPrefix hasBench phys paper n).physical.getD
        rN.origIdx dummyCargo = phys.getD rN.origIdx dummyCargo := by
      apply (hmaster n).2 rN
      rw [hdropeq]
      exact List.mem_cons_self _ _
    have hsnap : 0 ≤ rN.cargo.unhedgedVolume := by
      rw [hok.2, List.getD_eq_getElem?_getD]
      by_cases hj : rN.origIdx < phys.length
      · rw [List.getElem?_eq_getElem hj]
        exact hpos _ (List.getElem_mem hj)
      · rw [List.getElem?_eq_none (le_of_not_lt hj)]
        exact le_refl 0
    by_cases hji : j = rN.origIdx
    · subst hji
      rcases processCargo_phys_self (allocPrefix hasBench phys paper n)
        rN hsnap with heq | ⟨v2, h20, h2le, heq⟩
      · rw [heq]
      · rw [heq, huntouched]
        simp only
        rw [huntouched] at *
        calc v2 ≤ rN.cargo.unhedgedVolume := h2le
          _ = (phys.getD rN.origIdx dummyCargo).unhedgedVolume := by
            rw [hok.2]
    · rw [processCargo_phys_other _ _ _ hji]
  · rw [allocPrefix_succ_ge hasBench phys paper hn]

end HedgeMatcher

namespace HedgeMatcher

/-- C6 amended witness: the invariant applied to the 50-lot cargo run at
the first processing step. -/
theorem unhedged_monotone_nonneg_witness :
    0 ≤ ((allocPrefix true [cargoFifty]
      (calculate_net_positions_corrected [netA, netB]) (0 + 1)).physical.getD
        0 dummyCargo).unhedgedVolume ∧
    ((allocPrefix true [cargoFifty]
      (calculate_net_positions_corrected [netA, netB]) (0 + 1)).physical.getD
        0 dummyCargo).unhedgedVolume ≤
      ((allocPrefix true [cargoFifty]
        (calculate_net_positions_corrected [netA, netB]) 0).physical.getD
          0 dummyCargo).unhedgedVolume :=
  unhedged_monotone_nonneg true [cargoFifty]
    (calculate_net_positions_corrected [netA, netB]) (by decide) 0 0

theorem processCargo_noCands (s : AllocState) (row : CargoRow)
    (hempty : candidatesFor s.activePaper row.cargo.hedgeProxy
      row.cargo.targetContractMonth = []) : processCargo s row = s := by
  simp only [processCargo]
  split_ifs with h1 h2
  · rfl
  · rfl
  · exact absurd (by rw [hempty]; rfl) h2

theorem map_trade_of_pair_map {a1 a2 : List AllocPaper}
    (h : a1.map (fun p => (p.origIndex, p.trade)) =
      a2.map (fun p => (p.origIndex, p.trade))) :
    a1.map (fun p => p.trade) = a2.map (fun p => p.trade) := by
  have h1 : ∀ (l : List AllocPaper), l.map (fun p => p.trade) =
      (l.map (fun p => (p.origIndex, p.trade))).map Prod.snd := by
    intro l
    rw [List.map_map]
    rfl
  rw [h1, h1, h]

theorem foldl_notouch (i : Nat) (tr : List NettedTrade)
    (rows : List CargoRow) :
    ∀ (s : AllocState),
    s.activePaper.map (fun p => p.trade) = tr →
    (∀ r ∈ rows, r.origIdx = i →
      ∀ t ∈ tr, ¬ (strContains t.base.stdCommodity r.cargo.hedgeProxy = true ∧
        t.base.month = r.cargo.targetContractMonth)) →
    (rows.foldl processCargo s).physical.getD i dummyCargo =
      s.physical.getD i dummyCargo := by
  induction rows with
  | nil => intro s _ _; rfl
  | cons r rest ih =>
    intro s hmap hrows
    rw [List.foldl_cons]
    have hmap2 : (processCargo s r).activePaper.map (fun p => p.trade) = tr := by
      rw [map_trade_of_pair_map (processCargo_active_map s r), hmap]
    have hstep : (processCargo s r).physical.getD i dummyCargo =
        s.physical.getD i dummyCargo := by
      by_cases hri : r.origIdx = i
      · have hempty : candidatesFor s.activePaper r.cargo.hedgeProxy
            r.cargo.targetContractMonth = [] := by
          rw [candidatesFor, List.filter_eq_nil]
          intro p hp
          have hptr : p.trade ∈ tr := by
            rw [← hmap]
            exact List.mem_map_of_mem _ hp
          have hnp := hrows r (List.mem_cons_self _ _) hri p.trade hptr
          simp only [candPred, Bool.and_eq_true, decide_eq_true_eq]
          intro hc
          exact hnp ⟨hc.1, hc.2⟩
        rw [processCargo_noCands s r hempty]
      · exact processCargo_phys_other s r i (fun h => hri h.symm)
    rw [ih (processCargo s r) hmap2
      (fun r2 hr2 => hrows r2 (List.mem_cons_of_mem _ hr2)), hstep]

/-- C9.  No-match semantics: a cargo none of whose candidate paper trades
pass the commodity-substring and contract-month filter is skipped — the
allocation engine (a total function, so no error is raised) leaves its
row of the physical table, in particular its `Unhedged_Volume`, exactly
as it was before the run, and no other cargo's processing can touch it. -/
theorem no_match_skip (hasBench : Bool) (phys : List Cargo)
    (paper : List NettedTrade) (i : Nat)
    (hnone : ∀ t ∈ paper,
      ¬ (strContains t.base.stdCommodity
          (phys.getD i dummyCargo).hedgeProxy = true ∧
        t.base.month = (phys.getD i dummyCargo).targetContractMonth)) :
    (auto_match_hedges hasBench phys paper).physical.getD i dummyCargo =
      phys.getD i dummyCargo := by
  unfold auto_match_hedges
  rw [foldl_notouch i paper (cargoProcessingOrder hasBench phys)
    (initAllocState phys paper) ?_ ?_]
  · rfl
  · simp only [initAllocState, List.map_map]
    have : ((fun (p : AllocPaper) => p.trade) ∘
        fun p => (⟨p.1, p.2, 0⟩ : AllocPaper)) = Prod.snd := by
      funext p
      rfl
    rw [this, List.enum_map_snd]
  · intro r hr hri t ht
    have hok := cargoOrder_ok hasBench phys r hr
    rw [hok.2, hri]
    exact hnone t ht

/-- C9 witness: a GASOIL-proxy cargo against a BRENT-only paper pool is
left untouched. -/
theorem no_match_skip_witness :
    (auto_match_hedges true [cargoOrphan]
      (calculate_net_positions_corrected [poolT])).physical.getD 0
        dummyCargo = ([cargoOrphan] : List Cargo).getD 0 dummyCargo :=
  no_match_skip true [cargoOrphan]
    (calculate_net_positions_corrected [poolT]) 0
    (by with_unfolding_all decide)

end HedgeMatcher

namespace HedgeMatcher

/-- C3 (amended).  Cargo processing order: when the benchmark column is
present, `auto_match_hedges` processes the cargoes in a permutation of
the input rows that is sorted by benchmark priority (benchmarks
containing "BRENT" first) and, within the same priority tier, by
original row position — not by designation date or cargo ID, which the
engine never consults for this sort (see the counterexample).  The
claimed consequence still holds: with a BRENT-benchmark cargo and a
WTI-benchmark cargo both needing 100 lots of a single 100-lot trade,
the BRENT cargo receives the full 100 (unhedged 0) and the WTI cargo
receives 0 (unhedged 100). -/
theorem cargo_order_amended :
    (∀ phys : List Cargo,
      (cargoProcessingOrder true phys).Perm (enumCargoRows phys) ∧
      (cargoProcessingOrder true phys).Pairwise (fun a b =>
        bench_prio a.cargo < bench_prio b.cargo ∨
          (bench_prio a.cargo = bench_prio b.cargo ∧
            a.origIdx < b.origIdx))) ∧
    (auto_match_hedges true [cargoWti, cargoBrent]
      (calculate_net_positions_corrected [poolT])).physical.map
        (fun c => (c.cargoId, c.unhedgedVolume)) = [("W", 100), ("B", 0)] := by
  constructor
  · intro phys
    have hdef : cargoProcessingOrder true phys =
        List.insertionSort cargoLe (enumCargoRows phys) := rfl
    constructor
    · rw [hdef]
      exact List.perm_insertionSort cargoLe (enumCargoRows phys)
    · have hsorted : (cargoProcessingOrder true phys).Pairwise cargoLe := by
        rw [hdef]
        exact List.sorted_insertionSort cargoLe (enumCargoRows phys)
      have hne := cargoOrder_pairwise_ne true phys
      refine (hsorted.and hne).imp ?_
      intro a b hab
      obtain ⟨hle, hneq⟩ := hab
      unfold cargoLe at hle
      rcases hle with h | ⟨he, hle2⟩
      · exact Or.inl h
      · exact Or.inr ⟨he, lt_of_le_of_ne hle2 hneq⟩
  · with_unfolding_all decide

theorem ranked_perm_fst {rel : (AllocPaper × Option ℤ) →
    (AllocPaper × Option ℤ) → Prop} [DecidableRel rel]
    (f : AllocPaper → Option ℤ) (cands : List AllocPaper) :
    ((List.insertionSort rel
      (cands.map (fun p => (p, f p)))).map Prod.fst).Perm cands := by
  have h1 := (List.perm_insertionSort rel
    (cands.map (fun p => (p, f p)))).map Prod.fst
  have h2 : (cands.map (fun p => (p, f p))).map Prod.fst = cands := by
    rw [List.map_map]
    rw [show (Prod.fst ∘ fun (p : AllocPaper) => (p, f p)) = id from
      funext fun p => rfl]
    exact List.map_id cands
  rw [h2] at h1
  exact h1

theorem ranked_snd {rel : (AllocPaper × Option ℤ) →
    (AllocPaper × Option ℤ) → Prop} [DecidableRel rel]
    (f : AllocPaper → Option ℤ) (cands : List AllocPaper) :
    ∀ pl ∈ List.insertionSort rel (cands.map (fun p => (p, f p))),
      pl.2 = f pl.1 := by
  intro pl hpl
  rw [(List.perm_insertionSort rel _).mem_iff] at hpl
  obtain ⟨p, _, rfl⟩ := List.mem_map.mp hpl
  rfl

/-- C5.  Per-cargo candidate selection: for a cargo, the ranked candidate
list the allocation engine walks is exactly (a permutation of) the
paper rows whose normalized commodity contains the cargo's hedge proxy
and whose month equals the cargo's target month (first two conjuncts);
when the cargo has a designation date and some candidate has a parseable
trade date, the walked list is sorted by ascending absolute lag with
ties by earliest trade date and each candidate carries the lag
`trade date - designation date` (third conjunct); otherwise it is
sorted by ascending trade date with no lag recorded (third and fourth
conjuncts). -/
theorem candidate_selection (active : List AllocPaper) (c : Cargo) :
    ((rankCandidates c.designationDate
        (candidatesFor active c.hedgeProxy c.targetContractMonth)).map
      Prod.fst).Perm
        (candidatesFor active c.hedgeProxy c.targetContractMonth) ∧
    (∀ p : AllocPaper,
      p ∈ (rankCandidates c.designationDate
          (candidatesFor active c.hedgeProxy c.targetContractMonth)).map
        Prod.fst ↔
      (p ∈ active ∧
        strContains p.trade.base.stdCommodity c.hedgeProxy = true ∧
        p.trade.base.month = c.targetContractMonth)) ∧
    (∀ dd : ℤ, c.designationDate = some dd →
      ((candidatesFor active c.hedgeProxy c.targetContractMonth).any
          (fun p => p.trade.base.tradeDate.isSome) = true →
        (rankCandidates c.designationDate
          (candidatesFor active c.hedgeProxy c.targetContractMonth)).Sorted
            lagLe ∧
        ∀ pl ∈ rankCandidates c.designationDate
            (candidatesFor active c.hedgeProxy c.targetContractMonth),
          pl.2 = pl.1.trade.base.tradeDate.map (fun d => d - dd)) ∧
      ((candidatesFor active c.hedgeProxy c.targetContractMonth).any
          (fun p => p.trade.base.tradeDate.isSome) = false →
        (rankCandidates c.designationDate
          (candidatesFor active c.hedgeProxy c.targetContractMonth)).Sorted
            candDateLe ∧
        ∀ pl ∈ rankCandidates c.designationDate
            (candidatesFor active c.hedgeProxy c.targetContractMonth),
          pl.2 = none)) ∧
    (c.designationDate = none →
      (rankCandidates c.designationDate
        (candidatesFor active c.hedgeProxy c.targetContractMonth)).Sorted
          candDateLe ∧
      ∀ pl ∈ rankCandidates c.designationDate
          (candidatesFor active c.hedgeProxy c.targetContractMonth),
        pl.2 = none) := by
  set cands := candidatesFor active c.hedgeProxy c.targetContractMonth
    with hcands
  have hperm : ((rankCandidates c.designationDate cands).map
      Prod.fst).Perm cands := by
    rcases hd : c.designationDate with _ | dd
    · exact ranked_perm_fst _ cands
    · have hdef : rankCandidates (some dd) cands =
          if cands.any (fun p => p.trade.base.tradeDate.isSome) then
            List.insertionSort lagLe
              (cands.map (fun p =>
                (p, p.trade.base.tradeDate.map (fun d => d - dd))))
          else
            List.insertionSort candDateLe
              (cands.map (fun p => (p, (none : Option ℤ)))) := rfl
      rw [hdef]
      split_ifs
      · exact ranked_perm_fst _ cands
      · exact ranked_perm_fst _ cands
  refine ⟨hperm, ?_, ?_, ?_⟩
  · intro p
    rw [hperm.mem_iff, hcands, candidatesFor, List.mem_filter, candPred,
      Bool.and_eq_true, decide_eq_true_eq]
  · intro dd hdd
    rw [hdd]
    have hdef : rankCandidates (some dd) cands =
        if cands.any (fun p => p.trade.base.tradeDate.isSome) then
          List.insertionSort lagLe
            (cands.map (fun p =>
              (p, p.trade.base.tradeDate.map (fun d => d - dd))))
        else
          List.insertionSort candDateLe
            (cands.map (fun p => (p, (none : Option ℤ)))) := rfl
    constructor
    · intro hany
      rw [hdef, if_pos hany]
      exact ⟨List.sorted_insertionSort lagLe _, ranked_snd _ cands⟩
    · intro hany
      rw [hdef, if_neg (by rw [hany]; exact Bool.false_ne_true)]
      exact ⟨List.sorted_insertionSort candDateLe _, ranked_snd _ cands⟩
  · intro hd
    rw [hd]
    have hdef : rankCandidates none cands =
        List.insertionSort candDateLe
          (cands.map (fun p => (p, (none : Option ℤ)))) := rfl
    rw [hdef]
    exact ⟨List.sorted_insertionSort candDateLe _, ranked_snd _ cands⟩

/-- C5 witness: the ranking instantiated for the WTI cargo (designation
day 4) against the netted single-trade pool. -/
theorem candidate_selection_witness :
    (rankCandidates cargoWti.designationDate
      (candidatesFor (initAllocState [cargoWti]
          (calculate_net_positions_corrected [poolT])).activePaper
        cargoWti.hedgeProxy cargoWti.targetContractMonth)).Sorted lagLe ∧
    ∀ pl ∈ rankCandidates cargoWti.designationDate
        (candidatesFor (initAllocState [cargoWti]
            (calculate_net_positions_corrected [poolT])).activePaper
          cargoWti.hedgeProxy cargoWti.targetContractMonth),
      pl.2 = pl.1.trade.base.tradeDate.map (fun d => d - 4) :=
  ((candidate_selection (initAllocState [cargoWti]
      (calculate_net_positions_corrected [poolT])).activePaper
    cargoWti).2.2.1 4 rfl).1 (by with_unfolding_all decide)

end HedgeMatcher
